import Mathlib

/-!
Verification of MetamorphicGuard (a baseline/candidate evaluation framework).

This file gives a shallow embedding, in Lean 4, of the statistical and
evaluation routines of the `metamorphic_guard` Python package, and proves
properties of them.  Conventions used throughout:

* Python floats are modelled as rationals (`ℚ`); float arithmetic is treated
  as exact real arithmetic.
* Transcendental standard-library functions (`math.sqrt`, `math.log`,
  `math.exp`, `NormalDist().inv_cdf`, `NormalDist().cdf`) and other standard
  library primitives (`float()` parsing, `random.Random` streams, `str()`
  rendering, `hashlib`-derived RNG seeding) are not repository code; they are
  taken as abstract function parameters, together with hypotheses recording
  the facts the proofs need about them (for example that a square root is
  non-negative and squares back to its argument).
* Python lists become `List`, dictionaries with a fixed key set become
  structures with `Option` fields (absent key = `none`), exceptions become
  `Except String` or `Option` results.
* `random.Random(seed).randrange(n)` is modelled by an abstract stream
  `draws : ℕ → ℕ` of successive outputs, each reduced modulo `n` (a real
  `randrange(n)` output is always `< n`).
-/

/-- Stable insertion used to model Python's stable `sorted` / `list.sort`:
`a` is inserted strictly before the first element `b` with `a < b` in the
comparison order, hence after any element comparing equal to `a`, which is
exactly the placement a stable sort gives. -/
def insertS {α : Type} (le : α → α → Bool) (a : α) : List α → List α
  | [] => [a]
  | b :: bs => if le a b && ! le b a then a :: b :: bs else b :: insertS le a bs

/-- Model of Python's stable `sorted(xs, key=...)`: fold the list from the
left, inserting each element after its equals.  Any stable sort agrees with
this function, so it is a faithful model of CPython's timsort. -/
def pySorted {α : Type} (le : α → α → Bool) (l : List α) : List α :=
  l.foldl (fun acc x => insertS le x acc) []

/-- `sorted(values)` on a list of floats. -/
def pySortedQ (l : List ℚ) : List ℚ :=
  pySorted (fun a b => decide (a ≤ b)) l

/-- Python's builtin `min` on a non-empty list (`0` on the empty list, which
never occurs in the guarded call sites below). -/
def listMin (l : List ℚ) : ℚ :=
  match l with
  | [] => 0
  | x :: xs => xs.foldl min x

/-- Python's builtin `max` on a non-empty list (`0` on the empty list). -/
def listMax (l : List ℚ) : ℚ :=
  match l with
  | [] => 0
  | x :: xs => xs.foldl max x

theorem insertS_length {α : Type} (le : α → α → Bool) (a : α) (l : List α) :
    (insertS le a l).length = l.length + 1 := by
  induction l with
  | nil => rfl
  | cons b bs ih => simp only [insertS]; split <;> simp [ih]

theorem insertS_perm {α : Type} (le : α → α → Bool) (a : α) (l : List α) :
    (insertS le a l).Perm (a :: l) := by
  induction l with
  | nil => exact List.Perm.refl _
  | cons b bs ih =>
    simp only [insertS]; split
    · exact List.Perm.refl _
    · exact (List.Perm.cons b ih).trans (List.Perm.swap a b bs)

theorem pySorted_perm {α : Type} (le : α → α → Bool) (l : List α) :
    (pySorted le l).Perm l := by
  suffices h : ∀ (acc : List α), (l.foldl (fun acc x => insertS le x acc) acc).Perm (l.reverse ++ acc) by
    have h0 := h []
    simp only [List.append_nil] at h0
    exact h0.trans (List.reverse_perm l)
  induction l with
  | nil => intro acc; simp
  | cons x xs ih =>
    intro acc
    simp only [List.foldl_cons, List.reverse_cons, List.append_assoc, List.singleton_append]
    exact (ih (insertS le x acc)).trans
      (List.Perm.append_left xs.reverse ((insertS_perm le x acc).trans (List.Perm.refl _)))

theorem pySorted_length {α : Type} (le : α → α → Bool) (l : List α) :
    (pySorted le l).length = l.length :=
  (pySorted_perm le l).length_eq

theorem pySorted_mem {α : Type} {le : α → α → Bool} {l : List α} {x : α}
    (hx : x ∈ pySorted le l) : x ∈ l :=
  ((pySorted_perm le l).mem_iff).mp hx

/-- Embeds `metamorphic_guard.harness.statistics.percentile` (the q-th
percentile with linear interpolation, `0 ≤ q ≤ 1`). -/
def percentile (values : List ℚ) (q : ℚ) : ℚ :=
  if values = [] then 0
  else if q ≤ 0 then listMin values
  else if 1 ≤ q then listMax values
  else
    let sorted_vals := pySortedQ values
    let n := sorted_vals.length
    let index := q * ((n : ℚ) - 1)
    let lower_idx := (⌊index⌋).toNat
    let upper_idx := min (lower_idx + 1) (n - 1)
    let weight := index - (lower_idx : ℚ)
    sorted_vals.getD lower_idx 0 * (1 - weight) + sorted_vals.getD upper_idx 0 * weight

/-- Embeds `metamorphic_guard.harness._percentile` (the harness module's own
copy of the percentile computation; `int(k)` equals `⌊k⌋` here because `k ≥ 0`
in the branch where it is used). -/
def _percentile (values : List ℚ) (q : ℚ) : ℚ :=
  if values = [] then 0
  else if q ≤ 0 then listMin values
  else if 1 ≤ q then listMax values
  else
    let sorted_vals := pySortedQ values
    let k := ((sorted_vals.length : ℚ) - 1) * q
    let f := ⌊k⌋
    let c := ⌈k⌉
    if f = c then sorted_vals.getD (⌊k⌋).toNat 0
    else sorted_vals.getD f.toNat 0 * ((c : ℚ) - k) + sorted_vals.getD c.toNat 0 * (k - (f : ℚ))

/-- C9: the two bundled percentile implementations are extensionally equal:
`harness._percentile` and `harness.statistics.percentile` agree on every
input list and every `q` (both clamp to the minimum for `q ≤ 0`, to the
maximum for `q ≥ 1`, and use the same linear interpolation at index
`q*(n-1)` otherwise). -/
theorem percentile_impls_equal (values : List ℚ) (q : ℚ) :
    _percentile values q = percentile values q := by
  unfold _percentile percentile
  split
  · rfl
  · split
    · rfl
    · split
      · rfl
      · rename_i hne hq0 hq1
        simp only []
        set s := pySortedQ values with hs
        have hlen : s.length = values.length := pySorted_length _ _
        have hnpos : 0 < s.length := by
          rw [hlen]
          exact List.length_pos.mpr hne
        set n := s.length with hn
        have hq0' : 0 < q := lt_of_not_le hq0
        have hq1' : q < 1 := lt_of_not_le hq1
        have hn1 : (1 : ℚ) ≤ (n : ℚ) := by exact_mod_cast hnpos
        -- the two index expressions coincide
        have hidx : q * ((n : ℚ) - 1) = ((n : ℚ) - 1) * q := mul_comm _ _
        set k : ℚ := ((n : ℚ) - 1) * q with hkdef
        have hk0 : 0 ≤ k := mul_nonneg (by linarith) (le_of_lt hq0')
        have hf0 : 0 ≤ ⌊k⌋ := Int.floor_nonneg.mpr hk0
        rw [hidx]
        by_cases hfc : ⌊k⌋ = ⌈k⌉
        · -- k is an integer; the interpolation weight is zero
          rw [if_pos hfc]
          have hkf : (⌊k⌋ : ℚ) = k := by
            have h1 : (⌊k⌋ : ℚ) ≤ k := Int.floor_le k
            have h2 : k ≤ (⌈k⌉ : ℚ) := Int.le_ceil k
            rw [← hfc] at h2
            linarith
          have hcast : ((⌊k⌋.toNat : ℚ)) = (⌊k⌋ : ℚ) := by
            exact_mod_cast Int.toNat_of_nonneg hf0
          have hw : k - ((⌊k⌋.toNat : ℚ)) = 0 := by rw [hcast, hkf]; ring
          rw [hw]
          ring
        · -- k is not an integer; the ceiling is floor + 1
          rw [if_neg hfc]
          have hcle : ⌈k⌉ ≤ ⌊k⌋ + 1 := Int.ceil_le_floor_add_one k
          have hfle : ⌊k⌋ ≤ ⌈k⌉ := Int.floor_le_ceil k
          have hc : ⌈k⌉ = ⌊k⌋ + 1 := by omega
          -- n = 1 would force k = 0, an integer
          have hn2 : 2 ≤ n := by
            rcases Nat.lt_or_ge n 2 with h | h
            · exfalso
              have : n = 1 := by omega
              have hk : k = 0 := by
                rw [hkdef, this]
                norm_num
              apply hfc
              rw [hk]
              simp
            · exact h
          have hklt : k < (n : ℚ) - 1 := by
            have hpos : (0 : ℚ) < (n : ℚ) - 1 := by
              have : (2 : ℚ) ≤ (n : ℚ) := by exact_mod_cast hn2
              linarith
            calc k = ((n : ℚ) - 1) * q := hkdef
              _ < ((n : ℚ) - 1) * 1 := by
                  exact mul_lt_mul_of_pos_left hq1' hpos
              _ = (n : ℚ) - 1 := mul_one _
          have hflt : ⌊k⌋ < (n : ℤ) - 1 := by
            rw [Int.floor_lt]
            push_cast
            exact hklt
          have hmin : min (⌊k⌋.toNat + 1) (n - 1) = ⌊k⌋.toNat + 1 := by
            apply min_eq_left
            omega
          have hctn : (⌈k⌉).toNat = ⌊k⌋.toNat + 1 := by omega
          have hcastf : ((⌊k⌋.toNat : ℚ)) = (⌊k⌋ : ℚ) := by
            exact_mod_cast Int.toNat_of_nonneg hf0
          have hcastc : ((⌈k⌉ : ℤ) : ℚ) = (⌊k⌋ : ℚ) + 1 := by
            rw [hc]; push_cast; ring
          rw [hmin, hctn, hcastf, hcastc]
          ring

/-- Embeds `metamorphic_guard.harness.statistics.wilson_interval` (textually
identical to `metamorphic_guard.harness._wilson_interval`).  The standard
library values are passed in as arguments: `z` stands for
`NormalDist().inv_cdf(1 - alpha / 2)` (non-negative for `alpha ∈ (0,1)`), and
`s` stands for `math.sqrt((phat * (1 - phat) + z**2 / (4 * total)) / total)`;
`s` is characterised in the theorems by being non-negative with square equal
to the radicand. -/
def wilson_interval (z s : ℚ) (successes total : ℕ) : ℚ × ℚ :=
  if total = 0 then (0, 0)
  else
    let phat : ℚ := (successes : ℚ) / (total : ℚ)
    let denom : ℚ := 1 + z ^ 2 / (total : ℚ)
    let center : ℚ := phat + z ^ 2 / (2 * (total : ℚ))
    let margin : ℚ := z * s
    (max 0 ((center - margin) / denom), min 1 ((center + margin) / denom))

theorem le_of_sq_le_sq_nonneg (a b : ℚ) (hb : 0 ≤ b) (h : a ^ 2 ≤ b ^ 2) : a ≤ b := by
  nlinarith [sq_nonneg (a - b), sq_nonneg (a + b)]

/-- C4: for `0 ≤ successes ≤ total`, `total > 0` and any `alpha ∈ (0,1)`
(equivalently, any non-negative critical value `z` and exact square root `s`
of the Wilson radicand), the Wilson score interval `(lower, upper)` satisfies
`0 ≤ lower ≤ successes/total ≤ upper ≤ 1`. -/
theorem wilson_interval_bounds (z s : ℚ) (successes total : ℕ)
    (htot : 0 < total) (hsle : successes ≤ total) (hz : 0 ≤ z) (hs : 0 ≤ s)
    (hsq : s ^ 2 = (((successes : ℚ) / (total : ℚ)) * (1 - (successes : ℚ) / (total : ℚ))
      + z ^ 2 / (4 * (total : ℚ))) / (total : ℚ)) :
    0 ≤ (wilson_interval z s successes total).1 ∧
    (wilson_interval z s successes total).1 ≤ (successes : ℚ) / (total : ℚ) ∧
    (successes : ℚ) / (total : ℚ) ≤ (wilson_interval z s successes total).2 ∧
    (wilson_interval z s successes total).2 ≤ 1 := by
  have htot' : total ≠ 0 := Nat.pos_iff_ne_zero.mp htot
  have hW : wilson_interval z s successes total =
      (max 0 ((((successes : ℚ) / (total : ℚ) + z ^ 2 / (2 * (total : ℚ))) - z * s)
          / (1 + z ^ 2 / (total : ℚ))),
       min 1 ((((successes : ℚ) / (total : ℚ) + z ^ 2 / (2 * (total : ℚ))) + z * s)
          / (1 + z ^ 2 / (total : ℚ)))) := by
    unfold wilson_interval
    rw [if_neg htot']
  rw [hW]
  set N : ℚ := (total : ℚ) with hNdef
  have hN : 0 < N := by
    rw [hNdef]
    exact_mod_cast htot
  set p : ℚ := (successes : ℚ) / N with hpdef
  have hp0 : 0 ≤ p := div_nonneg (Nat.cast_nonneg _) (le_of_lt hN)
  have hp1 : p ≤ 1 := by
    rw [hpdef, div_le_one hN, hNdef]
    exact_mod_cast hsle
  have hdenom : (0 : ℚ) < 1 + z ^ 2 / N := by positivity
  have h2N : (0 : ℚ) < 2 * N := by positivity
  -- clear the denominators in the square-root characterisation
  have hsq4 : 4 * s ^ 2 * N ^ 2 = 4 * N * (p * (1 - p)) + z ^ 2 := by
    rw [hsq]
    field_simp
    ring
  have hb : (0 : ℚ) ≤ z * s * (2 * N) := by positivity
  have hkey_sq : (z ^ 2 * (1 - 2 * p)) ^ 2 ≤ (z * s * (2 * N)) ^ 2 := by
    have hpp : (0 : ℚ) ≤ p * (1 - p) := mul_nonneg hp0 (by linarith)
    nlinarith [mul_nonneg hpp (by positivity : (0 : ℚ) ≤ N * z ^ 2 + z ^ 4), hsq4,
      sq_nonneg z, sq_nonneg (1 - 2 * p)]
  have hkey : z ^ 2 * (1 - 2 * p) ≤ z * s * (2 * N) :=
    le_of_sq_le_sq_nonneg _ _ hb hkey_sq
  have hkey2 : z ^ 2 * (2 * p - 1) ≤ z * s * (2 * N) := by
    apply le_of_sq_le_sq_nonneg _ _ hb
    nlinarith [hkey_sq]
  refine ⟨le_max_left _ _, ?_, ?_, min_le_left _ _⟩
  · apply max_le hp0
    rw [div_le_iff₀ hdenom]
    rw [← mul_le_mul_right h2N]
    have lhs_eq : (p + z ^ 2 / (2 * N) - z * s) * (2 * N)
        = 2 * N * p + z ^ 2 - 2 * N * (z * s) := by
      field_simp
      ring
    have rhs_eq : (p * (1 + z ^ 2 / N)) * (2 * N) = 2 * N * p + 2 * p * z ^ 2 := by
      field_simp
      ring
    rw [lhs_eq, rhs_eq]
    nlinarith [hkey]
  · apply le_min hp1
    rw [le_div_iff₀ hdenom]
    rw [← mul_le_mul_right h2N]
    have lhs_eq : (p * (1 + z ^ 2 / N)) * (2 * N) = 2 * N * p + 2 * p * z ^ 2 := by
      field_simp
      ring
    have rhs_eq : (p + z ^ 2 / (2 * N) + z * s) * (2 * N)
        = 2 * N * p + z ^ 2 + 2 * N * (z * s) := by
      field_simp
      ring
    rw [lhs_eq, rhs_eq]
    nlinarith [hkey2]

/-- Witness for C4 at `successes = 0`, `total = 1`, `z = 0`, `s = 0`. -/
theorem wilson_interval_bounds_witness :
    0 ≤ (wilson_interval 0 0 0 1).1 ∧
    (wilson_interval 0 0 0 1).1 ≤ ((0 : ℕ) : ℚ) / ((1 : ℕ) : ℚ) ∧
    ((0 : ℕ) : ℚ) / ((1 : ℕ) : ℚ) ≤ (wilson_interval 0 0 0 1).2 ∧
    (wilson_interval 0 0 0 1).2 ≤ 1 :=
  wilson_interval_bounds 0 0 0 1 (by decide) (by decide) (le_refl 0) (le_refl 0)
    (by simp)

theorem foldl_min_all_zero (xs : List ℚ) (a : ℚ) (hxs : ∀ x ∈ xs, x = 0) (ha : a = 0) :
    xs.foldl min a = 0 := by
  induction xs generalizing a with
  | nil => simpa using ha
  | cons y ys ih =>
    simp only [List.foldl_cons]
    apply ih
    · intro x hx; exact hxs x (List.mem_cons_of_mem _ hx)
    · rw [ha, hxs y (List.mem_cons_self _ _)]; simp

theorem foldl_max_all_zero (xs : List ℚ) (a : ℚ) (hxs : ∀ x ∈ xs, x = 0) (ha : a = 0) :
    xs.foldl max a = 0 := by
  induction xs generalizing a with
  | nil => simpa using ha
  | cons y ys ih =>
    simp only [List.foldl_cons]
    apply ih
    · intro x hx; exact hxs x (List.mem_cons_of_mem _ hx)
    · rw [ha, hxs y (List.mem_cons_self _ _)]; simp

theorem getD_all_zero (l : List ℚ) (i : ℕ) (h : ∀ x ∈ l, x = 0) : l.getD i 0 = 0 := by
  rcases Nat.lt_or_ge i l.length with hi | hi
  · rw [List.getD_eq_getElem l 0 hi]
    exact h _ (List.getElem_mem hi)
  · exact List.getD_eq_default l 0 hi

/-- The percentile of a list whose entries are all zero is zero, for every `q`. -/
theorem percentile_all_zero (l : List ℚ) (q : ℚ) (h : ∀ x ∈ l, x = 0) :
    percentile l q = 0 := by
  unfold percentile
  split
  · rfl
  · rename_i hne
    have hsorted : ∀ x ∈ pySortedQ l, x = 0 := fun x hx => h x (pySorted_mem hx)
    split
    · unfold listMin
      match l, hne with
      | x :: xs, _ =>
        exact foldl_min_all_zero xs x (fun y hy => h y (List.mem_cons_of_mem _ hy))
          (h x (List.mem_cons_self _ _))
    · split
      · unfold listMax
        match l, hne with
        | x :: xs, _ =>
          exact foldl_max_all_zero xs x (fun y hy => h y (List.mem_cons_of_mem _ hy))
            (h x (List.mem_cons_self _ _))
      · simp only []
        rw [getD_all_zero _ _ hsorted, getD_all_zero _ _ hsorted]
        ring

/-- Embeds `metamorphic_guard.harness.statistics.generate_bootstrap_deltas`
for `clusters=None` (the cluster-resampling branch is entered only when a
cluster-label sequence is supplied; the claims below concern plain
per-indicator resampling).  Bootstrap iteration `s` consumes the `n`
consecutive `rng.randrange(n)` outputs `draws (s*n) .. draws (s*n + n - 1)`,
and the SAME index list is used to resample both the baseline and the
candidate indicators. -/
def generate_bootstrap_deltas (draws : ℕ → ℕ)
    (baseline_indicators candidate_indicators : List ℤ) (samples : ℕ) : List ℚ :=
  let n := baseline_indicators.length
  if n = 0 ∨ candidate_indicators.length ≠ n then []
  else
    (List.range (max 1 samples)).map (fun s =>
      let indices := (List.range n).map (fun j => draws (s * n + j) % n)
      let baseline_sum := (indices.map (fun i => baseline_indicators.getD i 0)).sum
      let candidate_sum := (indices.map (fun i => candidate_indicators.getD i 0)).sum
      ((candidate_sum - baseline_sum : ℤ) : ℚ) / (n : ℚ))

/-- Embeds `metamorphic_guard.harness.statistics.compute_bootstrap_ci` for
`use_bca=False` and `clusters=None` (the percentile path; the BCa branch is a
separate function not involved in the claims). -/
def compute_bootstrap_ci (draws : ℕ → ℕ)
    (baseline_indicators candidate_indicators : List ℤ) (alpha : ℚ) (samples : ℕ) : List ℚ :=
  let n := baseline_indicators.length
  if n = 0 ∨ candidate_indicators.length ≠ n then [0, 0]
  else
    let deltas := generate_bootstrap_deltas draws baseline_indicators candidate_indicators samples
    if deltas = [] then [0, 0]
    else [percentile deltas (alpha / 2), percentile deltas (1 - alpha / 2)]

/-- Embeds `metamorphic_guard.harness._compute_bootstrap_ci`.  Unlike the
statistics-module implementation, each bootstrap iteration draws TWO
independent index lists: iteration `s` consumes `draws (s*2n) .. draws
(s*2n + n - 1)` for the baseline sample and `draws (s*2n + n) .. draws
(s*2n + 2n - 1)` for the candidate sample. -/
def _compute_bootstrap_ci (draws : ℕ → ℕ)
    (baseline_indicators candidate_indicators : List ℤ) (alpha : ℚ) (samples : ℕ) : List ℚ :=
  let n := baseline_indicators.length
  if n = 0 ∨ candidate_indicators.length ≠ n then [0, 0]
  else
    let deltas := (List.range (max 1 samples)).map (fun s =>
      let baseline_sample := (List.range n).map
        (fun j => baseline_indicators.getD (draws (s * (2 * n) + j) % n) 0)
      let candidate_sample := (List.range n).map
        (fun j => candidate_indicators.getD (draws (s * (2 * n) + n + j) % n) 0)
      let p_baseline := (baseline_sample.sum : ℚ) / (n : ℚ)
      let p_candidate := (candidate_sample.sum : ℚ) / (n : ℚ)
      p_candidate - p_baseline)
    [_percentile deltas (alpha / 2), _percentile deltas (1 - alpha / 2)]

/-- C3 (amended): the statistics-engine bootstrap resamples baseline and
candidate indicators as pairs (the same resampled index list is used for both
roles), so on two identical indicator sequences every bootstrap delta is
exactly zero, and the percentile confidence interval `[lower, upper]`
returned by `compute_bootstrap_ci` satisfies `lower ≤ 0 ≤ upper` for every
RNG stream, every alpha and every sample count. -/
theorem compute_bootstrap_ci_contains_zero (draws : ℕ → ℕ) (b : List ℤ)
    (alpha : ℚ) (samples : ℕ) :
    (∀ d ∈ generate_bootstrap_deltas draws b b samples, d = 0) ∧
    (compute_bootstrap_ci draws b b alpha samples).getD 0 0 ≤ 0 ∧
    0 ≤ (compute_bootstrap_ci draws b b alpha samples).getD 1 0 := by
  have hdeltas : ∀ d ∈ generate_bootstrap_deltas draws b b samples, d = 0 := by
    intro d hd
    unfold generate_bootstrap_deltas at hd
    by_cases hb : b.length = 0 ∨ b.length ≠ b.length
    · rw [if_pos hb] at hd
      simp at hd
    · rw [if_neg hb] at hd
      simp only [List.mem_map] at hd
      obtain ⟨s, _, hds⟩ := hd
      rw [← hds]
      simp
  refine ⟨hdeltas, ?_⟩
  unfold compute_bootstrap_ci
  by_cases hb : b.length = 0 ∨ b.length ≠ b.length
  · rw [if_pos hb]
    constructor <;> simp
  · rw [if_neg hb]
    by_cases hempty : generate_bootstrap_deltas draws b b samples = []
    · rw [if_pos hempty]
      constructor <;> simp
    · rw [if_neg hempty]
      simp only [List.getD_cons_zero, List.getD_cons_succ]
      rw [percentile_all_zero _ _ hdeltas, percentile_all_zero _ _ hdeltas]
      exact ⟨le_refl 0, le_refl 0⟩

/-- C3 counterexample: `harness._compute_bootstrap_ci` does NOT resample the
two roles as pairs.  With identical indicator sequences `[1, 0]`, a single
resample, `alpha = 1/20 ∈ (0,1)`, and an RNG stream beginning
`1, 1, 0, 1` (the baseline sample hits index 1 twice, the candidate sample
hits indices 0 and 1), the returned interval is `[1/2, 1/2]`, which does not
satisfy `lower ≤ 0`. -/
theorem _compute_bootstrap_ci_can_exclude_zero :
    _compute_bootstrap_ci (fun t => [1, 1, 0, 1].getD t 0) [1, 0] [1, 0] (1 / 20) 1
      = [1 / 2, 1 / 2] ∧ ¬ ((1 : ℚ) / 2 ≤ 0) := by
  constructor
  · norm_num [_compute_bootstrap_ci, _percentile, pySortedQ, pySorted, insertS,
      List.range_succ, listMin, listMax]
  · norm_num

/-- Role-metrics dictionary as consumed by the relative-risk and adaptive
code: the keys `pass_rate`, `passes`, `total` may each be absent
(`m.get(key)` / `m.get(key, 0)`). -/
structure Metrics where
  pass_rate : Option ℚ
  passes : Option ℕ
  total : Option ℕ

/-- The pass-rate resolution shared by
`harness._compute_relative_risk` / `statistics.compute_relative_risk` and
`adaptive.should_continue_adaptive`: use the `pass_rate` entry when present,
otherwise `passes / total` when `total` is non-zero, otherwise `0.0`. -/
def resolved_pass_rate (m : Metrics) : ℚ :=
  match m.pass_rate with
  | some r => r
  | none =>
    let total := m.total.getD 0
    if total ≠ 0 then (m.passes.getD 0 : ℚ) / (total : ℚ) else 0

/-- A Python float value that may be one of the IEEE infinities
(`float("inf")`, `float("-inf")`); finite values are rationals. -/
inductive PyFloat where
  | val : ℚ → PyFloat
  | inf : PyFloat
  | ninf : PyFloat
deriving DecidableEq

/-- Adding a finite float to a possibly-infinite one, with IEEE semantics. -/
def PyFloat.addC : PyFloat → ℚ → PyFloat
  | .val a, b => .val (a + b)
  | .inf, _ => .inf
  | .ninf, _ => .ninf

/-- `math.exp` extended to the infinities: `exp(-inf) = 0.0`, `exp(inf) = inf`. -/
def PyFloat.expF (expQ : ℚ → ℚ) : PyFloat → PyFloat
  | .val a => .val (expQ a)
  | .inf => .inf
  | .ninf => .val 0

/-- Result of the relative-risk computation: the point estimate and the
confidence interval `[lower, upper]`. -/
structure RRResult where
  rr : PyFloat
  ci : List PyFloat
deriving DecidableEq

/-- Embeds `metamorphic_guard.harness._compute_relative_risk` (textually
identical to `metamorphic_guard.harness.statistics.compute_relative_risk`).
`logQ`, `expQ`, `sqrtQ`, `invCdf` stand for `math.log`, `math.exp`,
`math.sqrt` and `NormalDist().inv_cdf`.  The locals `failures_b`/`failures_c`
of the source are computed but never used and are omitted; a raised
`ValueError` becomes an `Except.error`. -/
def compute_relative_risk (logQ expQ sqrtQ invCdf : ℚ → ℚ)
    (baseline_metrics candidate_metrics : Metrics)
    (alpha : ℚ) (method : String) : Except String RRResult :=
  let p_b := resolved_pass_rate baseline_metrics
  let p_c := resolved_pass_rate candidate_metrics
  if p_b = 0 then .ok ⟨.inf, [.inf, .inf]⟩
  else
    let rr := p_c / p_b
    if method.toLower ≠ "log" then
      .error ("Unsupported relative risk CI method: " ++ method)
    else
      let total_b := max 1 (baseline_metrics.total.getD 0)
      let total_c := max 1 (candidate_metrics.total.getD 0)
      let successes_b := max 1 (baseline_metrics.passes.getD 0)
      let successes_c := max 1 (candidate_metrics.passes.getD 0)
      let ln_rr : PyFloat := if 0 < rr then .val (logQ rr) else .ninf
      let se := sqrtQ (1 / (successes_c : ℚ) - 1 / (total_c : ℚ)
        + 1 / (successes_b : ℚ) - 1 / (total_b : ℚ))
      let z := invCdf (1 - alpha / 2)
      let lower := PyFloat.expF expQ (PyFloat.addC ln_rr (-(z * se)))
      let upper := PyFloat.expF expQ (PyFloat.addC ln_rr (z * se))
      .ok ⟨.val rr, [lower, upper]⟩

/-- C6: whenever the baseline's resolved pass rate is exactly zero, the
relative-risk computation returns `inf` for the relative risk and
`[inf, inf]` for its confidence interval — for every candidate metrics
dictionary, every alpha, every CI method string, and every model of the
standard-library numerics — and in particular it never reaches the division
`p_c / p_b`. -/
theorem compute_relative_risk_inf_on_zero_baseline
    (logQ expQ sqrtQ invCdf : ℚ → ℚ) (baseline candidate : Metrics)
    (alpha : ℚ) (method : String)
    (h : resolved_pass_rate baseline = 0) :
    compute_relative_risk logQ expQ sqrtQ invCdf baseline candidate alpha method
      = .ok ⟨.inf, [.inf, .inf]⟩ := by
  unfold compute_relative_risk
  rw [if_pos h]

/-- Witness for C6: baseline with `passes = 0`, `total = 5` (pass rate `0`),
candidate with pass rate `1`, and an unsupported method string — the result
is still the infinite relative risk, not an error. -/
theorem compute_relative_risk_inf_witness :
    compute_relative_risk id id id id ⟨none, some 0, some 5⟩ ⟨some 1, none, none⟩
      (1 / 20) "wald" = .ok ⟨.inf, [.inf, .inf]⟩ :=
  compute_relative_risk_inf_on_zero_baseline id id id id _ _ _ _
    (by simp [resolved_pass_rate])

/-- Embeds `metamorphic_guard.harness.statistics.estimate_power`.  `sqrtQ`,
`invCdf`, `cdf` stand for `math.sqrt`, `NormalDist().inv_cdf` and
`NormalDist().cdf`; `math.ceil` on a float is `⌈·⌉ : ℚ → ℤ`.  Returns the
clamped power estimate and the optional recommended sample size. -/
def estimate_power (sqrtQ invCdf cdf : ℚ → ℚ) (p_baseline p_candidate : ℚ)
    (sample_size : ℕ) (alpha_value delta_value power_target : ℚ) : ℚ × Option ℤ :=
  if sample_size = 0 then (0, none)
  else
    let effect := p_candidate - p_baseline
    let pooled_var := p_baseline * (1 - p_baseline) + p_candidate * (1 - p_candidate)
    if pooled_var = 0 then (if delta_value ≤ effect then 1 else 0, none)
    else
      let se := sqrtQ (pooled_var / (sample_size : ℚ))
      if se = 0 then (if delta_value ≤ effect then 1 else 0, none)
      else
        let z_alpha := invCdf (1 - alpha_value)
        let z_effect := (effect - delta_value) / se
        let power_val := max 0 (min 1 (1 - cdf (z_alpha - z_effect)))
        let recommended_n : Option ℤ :=
          if 0 < delta_value ∧ 0 < power_target ∧ power_target < 1 then
            let p1 := p_baseline
            let p2 := max 0 (min 1 (p_baseline + delta_value))
            let var_target := p1 * (1 - p1) + p2 * (1 - p2)
            if 0 < var_target then
              let z_beta := invCdf power_target
              some ⌈(z_alpha + z_beta) ^ 2 * var_target / delta_value ^ 2⌉
            else none
          else none
        (power_val, recommended_n)

/-- Embeds `metamorphic_guard.adaptive.AdaptiveConfig`. -/
structure AdaptiveConfig where
  enabled : Bool
  min_sample_size : ℕ
  check_interval : ℕ
  power_threshold : ℚ
  max_sample_size : Option ℕ
  early_stop_enabled : Bool

/-- The `reason` strings produced by `should_continue_adaptive`, abstracted
from their formatted-number suffixes. -/
inductive AdaptiveReason where
  | adaptive_testing_disabled
  | below_minimum_sample_size
  | reached_maximum_sample_size
  | insufficient_data_for_analysis
  | sufficient_power
  | insufficient_power_recommend
  | continuing_power
deriving DecidableEq

/-- Embeds `metamorphic_guard.adaptive.AdaptiveDecision`. -/
structure AdaptiveDecision where
  continue_sampling : Bool
  recommended_n : Option ℤ
  current_power : ℚ
  reason : AdaptiveReason
deriving DecidableEq

/-- Embeds `metamorphic_guard.adaptive.should_continue_adaptive`.  The
sequential early returns of the source become nested conditionals in source
order: disabled; below minimum; at/above maximum; per-role rate resolution;
fewer than 10 observations for either role; power estimation; early stop on
sufficient power; recommendation larger than the current sample size (capped
at the maximum); default continue. -/
def should_continue_adaptive (sqrtQ invCdf cdf : ℚ → ℚ)
    (baseline_metrics candidate_metrics : Metrics) (current_n : ℕ)
    (alpha min_delta power_target : ℚ) (config : AdaptiveConfig) : AdaptiveDecision :=
  if ¬ config.enabled then
    ⟨true, none, 0, .adaptive_testing_disabled⟩
  else if current_n < config.min_sample_size then
    ⟨true, none, 0, .below_minimum_sample_size⟩
  else if config.max_sample_size.any (fun m => decide (m ≤ current_n)) then
    ⟨false, config.max_sample_size.map (fun m => (m : ℤ)), 0, .reached_maximum_sample_size⟩
  else
    let baseline_rate := resolved_pass_rate baseline_metrics
    let candidate_rate := resolved_pass_rate candidate_metrics
    if baseline_metrics.total.getD 0 < 10 ∨ candidate_metrics.total.getD 0 < 10 then
      ⟨true, none, 0, .insufficient_data_for_analysis⟩
    else
      let pr := estimate_power sqrtQ invCdf cdf baseline_rate candidate_rate
        current_n alpha min_delta power_target
      let current_power := pr.1
      let recommended_n := pr.2
      if config.early_stop_enabled ∧ config.power_threshold ≤ current_power then
        ⟨false, some (current_n : ℤ), current_power, .sufficient_power⟩
      else
        match recommended_n with
        | some rec_n =>
          if (current_n : ℤ) < rec_n then
            let final_recommended : ℤ :=
              match config.max_sample_size with
              | some m => min rec_n (m : ℤ)
              | none => rec_n
            ⟨true, some final_recommended, current_power, .insufficient_power_recommend⟩
          else ⟨true, none, current_power, .continuing_power⟩
        | none => ⟨true, none, current_power, .continuing_power⟩

/-- C8: `should_continue_adaptive` applies its rules in exactly the declared
order: (1) disabled: continue, no recommendation; (2) below the minimum
sample size: continue; (3) at or above a configured maximum: stop, capped at
the maximum; (4) either role below 10 total observations: continue; (5)
estimated power at/above the threshold with early stopping enabled: stop;
(6) a recommended sample size above `current_n`: continue with that
recommendation capped at the maximum; (7) otherwise continue with no
recommendation. -/
theorem should_continue_adaptive_rule_order (sqrtQ invCdf cdf : ℚ → ℚ)
    (baseline candidate : Metrics) (current_n : ℕ)
    (alpha min_delta power_target : ℚ) (config : AdaptiveConfig) :
    (config.enabled = false →
      should_continue_adaptive sqrtQ invCdf cdf baseline candidate current_n
        alpha min_delta power_target config
      = ⟨true, none, 0, .adaptive_testing_disabled⟩) ∧
    (config.enabled = true → current_n < config.min_sample_size →
      should_continue_adaptive sqrtQ invCdf cdf baseline candidate current_n
        alpha min_delta power_target config
      = ⟨true, none, 0, .below_minimum_sample_size⟩) ∧
    (∀ m, config.enabled = true → config.min_sample_size ≤ current_n →
      config.max_sample_size = some m → m ≤ current_n →
      should_continue_adaptive sqrtQ invCdf cdf baseline candidate current_n
        alpha min_delta power_target config
      = ⟨false, some (m : ℤ), 0, .reached_maximum_sample_size⟩) ∧
    (config.enabled = true → config.min_sample_size ≤ current_n →
      (∀ m ∈ config.max_sample_size, current_n < m) →
      (baseline.total.getD 0 < 10 ∨ candidate.total.getD 0 < 10) →
      should_continue_adaptive sqrtQ invCdf cdf baseline candidate current_n
        alpha min_delta power_target config
      = ⟨true, none, 0, .insufficient_data_for_analysis⟩) ∧
    (config.enabled = true → config.min_sample_size ≤ current_n →
      (∀ m ∈ config.max_sample_size, current_n < m) →
      10 ≤ baseline.total.getD 0 → 10 ≤ candidate.total.getD 0 →
      config.early_stop_enabled = true →
      config.power_threshold ≤ (estimate_power sqrtQ invCdf cdf
        (resolved_pass_rate baseline) (resolved_pass_rate candidate)
        current_n alpha min_delta power_target).1 →
      should_continue_adaptive sqrtQ invCdf cdf baseline candidate current_n
        alpha min_delta power_target config
      = ⟨false, some (current_n : ℤ), (estimate_power sqrtQ invCdf cdf
          (resolved_pass_rate baseline) (resolved_pass_rate candidate)
          current_n alpha min_delta power_target).1, .sufficient_power⟩) ∧
    (∀ rec_n, config.enabled = true → config.min_sample_size ≤ current_n →
      (∀ m ∈ config.max_sample_size, current_n < m) →
      10 ≤ baseline.total.getD 0 → 10 ≤ candidate.total.getD 0 →
      ¬ (config.early_stop_enabled = true ∧ config.power_threshold ≤
        (estimate_power sqrtQ invCdf cdf (resolved_pass_rate baseline)
          (resolved_pass_rate candidate) current_n alpha min_delta power_target).1) →
      (estimate_power sqrtQ invCdf cdf (resolved_pass_rate baseline)
        (resolved_pass_rate candidate) current_n alpha min_delta power_target).2
        = some rec_n →
      (current_n : ℤ) < rec_n →
      should_continue_adaptive sqrtQ invCdf cdf baseline candidate current_n
        alpha min_delta power_target config
      = ⟨true, some (match config.max_sample_size with
            | some m => min rec_n (m : ℤ)
            | none => rec_n), (estimate_power sqrtQ invCdf cdf
          (resolved_pass_rate baseline) (resolved_pass_rate candidate)
          current_n alpha min_delta power_target).1, .insufficient_power_recommend⟩) ∧
    (config.enabled = true → config.min_sample_size ≤ current_n →
      (∀ m ∈ config.max_sample_size, current_n < m) →
      10 ≤ baseline.total.getD 0 → 10 ≤ candidate.total.getD 0 →
      ¬ (config.early_stop_enabled = true ∧ config.power_threshold ≤
        (estimate_power sqrtQ invCdf cdf (resolved_pass_rate baseline)
          (resolved_pass_rate candidate) current_n alpha min_delta power_target).1) →
      (∀ rec_n ∈ (estimate_power sqrtQ invCdf cdf (resolved_pass_rate baseline)
        (resolved_pass_rate candidate) current_n alpha min_delta power_target).2,
        rec_n ≤ (current_n : ℤ)) →
      should_continue_adaptive sqrtQ invCdf cdf baseline candidate current_n
        alpha min_delta power_target config
      = ⟨true, none, (estimate_power sqrtQ invCdf cdf
          (resolved_pass_rate baseline) (resolved_pass_rate candidate)
          current_n alpha min_delta power_target).1, .continuing_power⟩) := by
  refine ⟨?_, ?_, ?_, ?_, ?_, ?_, ?_⟩
  · intro hdis
    unfold should_continue_adaptive
    rw [if_pos]
    simp [hdis]
  · intro hen hmin
    unfold should_continue_adaptive
    rw [if_neg (by simp [hen]), if_pos hmin]
  · intro m hen hmin hmax hle
    unfold should_continue_adaptive
    rw [if_neg (by simp [hen]), if_neg (by omega), if_pos (by simp [hmax, hle]), hmax]
    rfl
  · intro hen hmin hmax hlow
    unfold should_continue_adaptive
    rw [if_neg (by simp [hen]), if_neg (by omega), if_neg ?hmaxcond, if_pos hlow]
    case hmaxcond =>
      cases hcase : config.max_sample_size with
      | none => simp [hcase]
      | some m =>
        have := hmax m (by rw [hcase]; rfl)
        simp [hcase]
        omega
  · intro hen hmin hmax hb10 hc10 hearly hpow
    unfold should_continue_adaptive
    rw [if_neg (by simp [hen]), if_neg (by omega), if_neg ?hmaxcond, if_neg (by omega)]
    case hmaxcond =>
      cases hcase : config.max_sample_size with
      | none => simp [hcase]
      | some m =>
        have := hmax m (by rw [hcase]; rfl)
        simp [hcase]
        omega
    simp only []
    rw [if_pos ⟨hearly, hpow⟩]
  · intro rec_n hen hmin hmax hb10 hc10 hnostop hrec hlt
    unfold should_continue_adaptive
    rw [if_neg (by simp [hen]), if_neg (by omega), if_neg ?hmaxcond, if_neg (by omega)]
    case hmaxcond =>
      cases hcase : config.max_sample_size with
      | none => simp [hcase]
      | some m =>
        have := hmax m (by rw [hcase]; rfl)
        simp [hcase]
        omega
    simp only []
    rw [if_neg hnostop, hrec]
    simp only []
    rw [if_pos hlt]
  · intro hen hmin hmax hb10 hc10 hnostop hrec
    unfold should_continue_adaptive
    rw [if_neg (by simp [hen]), if_neg (by omega), if_neg ?hmaxcond, if_neg (by omega)]
    case hmaxcond =>
      cases hcase : config.max_sample_size with
      | none => simp [hcase]
      | some m =>
        have := hmax m (by rw [hcase]; rfl)
        simp [hcase]
        omega
    simp only []
    rw [if_neg hnostop]
    cases hcase : (estimate_power sqrtQ invCdf cdf (resolved_pass_rate baseline)
        (resolved_pass_rate candidate) current_n alpha min_delta power_target).2 with
    | none => rfl
    | some rec_n =>
      have := hrec rec_n (by rw [hcase]; rfl)
      simp only []
      rw [if_neg (by omega)]

/-- Witness for C8 (rule 1): with adaptive testing disabled the decision is
always "continue with no recommendation". -/
theorem should_continue_adaptive_rule_order_witness :
    should_continue_adaptive id id id ⟨none, none, none⟩ ⟨none, none, none⟩ 0
      0 0 0 ⟨false, 50, 50, 0, none, true⟩
    = ⟨true, none, 0, .adaptive_testing_disabled⟩ :=
  (should_continue_adaptive_rule_order id id id ⟨none, none, none⟩ ⟨none, none, none⟩ 0
    0 0 0 ⟨false, 50, 50, 0, none, true⟩).1 rfl

/-- Embeds `metamorphic_guard.multiple_comparisons.holm_correction`:
p-values are paired with their original indices, stably sorted by p-value,
and entry of 1-based rank `k` gets adjusted p-value
`min(1, p * (n - k + 1))` and is significant when `p ≤ alpha / (n - k + 1)`.
The `enumerate(..., start=1)` loop is rendered as a map over the 0-based
positions `i` (rank `k = i + 1`) of the sorted list. -/
def holm_correction (p_values : List ℚ) (alpha : ℚ) : List (ℕ × ℚ × Bool) :=
  let n := p_values.length
  if n = 0 then []
  else
    let indexed := p_values.enum
    let sorted := pySorted (fun a b => decide (a.2 ≤ b.2)) indexed
    (List.range n).map (fun i =>
      let k : ℕ := i + 1
      let p_val := (sorted.getD i (0, 0)).2
      ((sorted.getD i (0, 0)).1,
        min 1 (p_val * ((n - k + 1 : ℕ) : ℚ)),
        decide (p_val ≤ alpha / ((n - k + 1 : ℕ) : ℚ))))

/-- The step-up search loop of `benjamini_hochberg_correction`: the largest
1-based rank `k ≤ j` with `sorted[k-1].p ≤ k * alpha / n`, or `0` when no
rank qualifies.  The argument `j` counts down from `n` exactly as the
Python `for k in range(n, 0, -1) ... break` loop does. -/
def bh_significant_count (sorted : List (ℕ × ℚ)) (alpha : ℚ) (n : ℕ) : ℕ → ℕ
  | 0 => 0
  | k + 1 =>
    if (sorted.getD k (0, 0)).2 ≤ ((k + 1 : ℕ) : ℚ) * alpha / (n : ℚ) then k + 1
    else bh_significant_count sorted alpha n k

/-- Embeds `metamorphic_guard.multiple_comparisons.benjamini_hochberg_correction`:
after the same index-pairing and stable sort as Holm, the largest rank `k`
with `p(k) ≤ k * alpha / n` is found by counting down from `n`, and exactly
the ranks up to that count are marked significant; the adjusted p-value is
`min(1, p * n / k)`. -/
def benjamini_hochberg_correction (p_values : List ℚ) (alpha : ℚ) : List (ℕ × ℚ × Bool) :=
  let n := p_values.length
  if n = 0 then []
  else
    let indexed := p_values.enum
    let sorted := pySorted (fun a b => decide (a.2 ≤ b.2)) indexed
    let significant_count := bh_significant_count sorted alpha n n
    (List.range n).map (fun i =>
      let k : ℕ := i + 1
      let p_val := (sorted.getD i (0, 0)).2
      ((sorted.getD i (0, 0)).1,
        min 1 (p_val * (n : ℚ) / ((k : ℕ) : ℚ)),
        decide (k ≤ significant_count)))

/-- Number of hypotheses a correction marks significant. -/
def count_significant (results : List (ℕ × ℚ × Bool)) : ℕ :=
  results.countP (fun t => t.2.2)

theorem bh_significant_count_le (sorted : List (ℕ × ℚ)) (alpha : ℚ) (n : ℕ) :
    ∀ j, bh_significant_count sorted alpha n j ≤ j := by
  intro j
  induction j with
  | zero => simp [bh_significant_count]
  | succ j ih =>
    unfold bh_significant_count
    split
    · exact le_refl _
    · omega

theorem bh_significant_count_ge (sorted : List (ℕ × ℚ)) (alpha : ℚ) (n k : ℕ)
    (hcond : (sorted.getD k (0, 0)).2 ≤ ((k + 1 : ℕ) : ℚ) * alpha / (n : ℚ)) :
    ∀ j, k < j → k + 1 ≤ bh_significant_count sorted alpha n j := by
  intro j
  induction j with
  | zero => omega
  | succ j ih =>
    intro hk
    unfold bh_significant_count
    split
    · omega
    · rename_i hneg
      by_cases hkj : k = j
      · subst hkj
        exact absurd hcond hneg
      · exact ih (by omega)

theorem countP_range_le_rank (n K : ℕ) :
    (List.range n).countP (fun i => decide (i ≤ K)) = min n (K + 1) := by
  induction n with
  | zero => simp
  | succ n ih =>
    rw [List.range_succ, List.countP_append, ih]
    rcases le_or_lt n K with h | h
    · simp [h]
      omega
    · simp [Nat.not_le.mpr h, List.countP_cons]
      omega

theorem countP_range_rank_le (n C : ℕ) :
    (List.range n).countP (fun i => decide (i + 1 ≤ C)) = min n C := by
  induction n with
  | zero => simp
  | succ n ih =>
    rw [List.range_succ, List.countP_append, ih]
    rcases le_or_lt (n + 1) C with h | h
    · simp [h]
      omega
    · simp [Nat.not_le.mpr h, List.countP_cons]
      omega

theorem holm_threshold_le_bh_threshold (n m : ℕ) (alpha : ℚ)
    (hm1 : 1 ≤ m) (hmn : m ≤ n) (halpha : 0 ≤ alpha) :
    alpha / ((n - m + 1 : ℕ) : ℚ) ≤ ((m : ℕ) : ℚ) * alpha / (n : ℚ) := by
  have hd1 : (0 : ℚ) < ((n - m + 1 : ℕ) : ℚ) := by
    have : 1 ≤ n - m + 1 := by omega
    exact_mod_cast Nat.lt_of_lt_of_le Nat.zero_lt_one this
  have hdn : (0 : ℚ) < (n : ℚ) := by
    have : 1 ≤ n := by omega
    exact_mod_cast Nat.lt_of_lt_of_le Nat.zero_lt_one this
  rw [div_le_div_iff₀ hd1 hdn]
  have hcast : ((n - m + 1 : ℕ) : ℚ) = (n : ℚ) - (m : ℚ) + 1 := by
    push_cast [Nat.cast_sub hmn]
    ring
  rw [hcast]
  have hm1' : (1 : ℚ) ≤ (m : ℚ) := by exact_mod_cast hm1
  have hmn' : (m : ℚ) ≤ (n : ℚ) := by exact_mod_cast hmn
  nlinarith [mul_nonneg halpha (mul_nonneg (by linarith : (0 : ℚ) ≤ (m : ℚ) - 1)
    (by linarith : (0 : ℚ) ≤ (n : ℚ) - (m : ℚ)))]

/-- C5: for every list of p-values in `[0,1]` and every alpha, the number of
hypotheses marked significant by Benjamini-Hochberg is at least the number
marked significant by Holm on the same input. -/
theorem bh_significant_ge_holm (p_values : List ℚ) (alpha : ℚ)
    (hp : ∀ p ∈ p_values, 0 ≤ p ∧ p ≤ 1) :
    count_significant (holm_correction p_values alpha)
      ≤ count_significant (benjamini_hochberg_correction p_values alpha) := by
  by_cases hn0 : p_values.length = 0
  · unfold count_significant holm_correction benjamini_hochberg_correction
    rw [if_pos hn0, if_pos hn0]
  · set n := p_values.length with hn
    set s := pySorted (fun a b : ℕ × ℚ => decide (a.2 ≤ b.2)) p_values.enum with hsdef
    set C := bh_significant_count s alpha n n with hC
    have hslen : s.length = n := by
      rw [hsdef, pySorted_length, List.enum_length]
    -- every p-value stored in the sorted list lies in [0,1]
    have hg : ∀ i, i < n → 0 ≤ (s.getD i (0, 0)).2 ∧ (s.getD i (0, 0)).2 ≤ 1 := by
      intro i hi
      have hi' : i < s.length := by omega
      rw [List.getD_eq_getElem s (0, 0) hi']
      have hmem : s[i] ∈ s := List.getElem_mem hi'
      have hmem2 : s[i] ∈ p_values.enum := pySorted_mem hmem
      have hmem3 : (s[i]).2 ∈ p_values := by
        have := List.mem_map_of_mem Prod.snd hmem2
        rwa [List.enum_map_snd] at this
      exact hp _ hmem3
    have hHolmEq : count_significant (holm_correction p_values alpha)
        = (List.range n).countP
            (fun i => decide ((s.getD i (0, 0)).2 ≤ alpha / ((n - (i + 1) + 1 : ℕ) : ℚ))) := by
      unfold count_significant holm_correction
      rw [if_neg hn0, List.countP_map]
      rfl
    have hBHEq : count_significant (benjamini_hochberg_correction p_values alpha)
        = (List.range n).countP (fun i => decide (i + 1 ≤ C)) := by
      unfold count_significant benjamini_hochberg_correction
      rw [if_neg hn0, List.countP_map]
      rfl
    rw [hHolmEq, hBHEq]
    have hCle : C ≤ n := bh_significant_count_le s alpha n n
    have hbh : (List.range n).countP (fun i => decide (i + 1 ≤ C)) = C := by
      rw [countP_range_rank_le]
      omega
    rw [hbh]
    by_cases halpha : 0 ≤ alpha
    · -- if any rank is Holm-significant, the greatest such rank bounds the
      -- Holm count and is itself BH-significant
      by_cases hhc : 0 < (List.range n).countP
          (fun i => decide ((s.getD i (0, 0)).2 ≤ alpha / ((n - (i + 1) + 1 : ℕ) : ℚ)))
      · obtain ⟨i0, hi0mem, hi0pred⟩ := List.countP_pos_iff.mp hhc
        have hi0n : i0 < n := List.mem_range.mp hi0mem
        have hi0p : (s.getD i0 (0, 0)).2 ≤ alpha / ((n - (i0 + 1) + 1 : ℕ) : ℚ) :=
          of_decide_eq_true hi0pred
        set Q : ℕ → Prop := fun k =>
          k < n ∧ (s.getD k (0, 0)).2 ≤ alpha / ((n - (k + 1) + 1 : ℕ) : ℚ) with hQ
        have hQdec : DecidablePred Q := fun k => by
          rw [hQ]
          infer_instance
        set K := @Nat.findGreatest Q hQdec n with hK
        have hQK : Q K := by
          rw [hK]
          exact Nat.findGreatest_spec (le_of_lt hi0n) ⟨hi0n, hi0p⟩
        have hmax : ∀ j, K < j → j ≤ n → ¬ Q j := by
          intro j hKj hjn
          rw [hK] at hKj
          exact Nat.findGreatest_is_greatest hKj hjn
        have hA : (List.range n).countP
            (fun i => decide ((s.getD i (0, 0)).2 ≤ alpha / ((n - (i + 1) + 1 : ℕ) : ℚ)))
            ≤ K + 1 := by
          have hstep : (List.range n).countP
              (fun i => decide ((s.getD i (0, 0)).2 ≤ alpha / ((n - (i + 1) + 1 : ℕ) : ℚ)))
              ≤ (List.range n).countP (fun i => decide (i ≤ K)) := by
            apply List.countP_mono_left
            intro i hi hpi
            have hin : i < n := List.mem_range.mp hi
            by_contra hKi
            have hKi' : K < i := by
              simp only [decide_eq_true_eq] at hKi
              omega
            exact hmax i hKi' (le_of_lt hin) ⟨hin, of_decide_eq_true hpi⟩
          have hcnt := countP_range_le_rank n K
          omega
        have hB : K + 1 ≤ C := by
          rw [hC]
          apply bh_significant_count_ge s alpha n K ?_ n hQK.1
          exact le_trans hQK.2
            (holm_threshold_le_bh_threshold n (K + 1) alpha (by omega) (by omega) halpha)
        omega
      · omega
    · -- negative alpha: no rank is Holm-significant
      have hzero : (List.range n).countP
          (fun i => decide ((s.getD i (0, 0)).2 ≤ alpha / ((n - (i + 1) + 1 : ℕ) : ℚ))) = 0 := by
        apply List.countP_eq_zero.mpr
        intro i hi
        have hin : i < n := List.mem_range.mp hi
        simp only [decide_eq_true_eq]
        intro hle
        have hd : (0 : ℚ) < ((n - (i + 1) + 1 : ℕ) : ℚ) := by
          have : 1 ≤ n - (i + 1) + 1 := by omega
          exact_mod_cast Nat.lt_of_lt_of_le Nat.zero_lt_one this
        have hneg : alpha / ((n - (i + 1) + 1 : ℕ) : ℚ) < 0 :=
          div_neg_of_neg_of_pos (lt_of_not_le halpha) hd
        have := (hg i hin).1
        linarith
      rw [hzero]
      omega

/-- Witness for C5 at `p_values = [0, 1]`, `alpha = 0`. -/
theorem bh_significant_ge_holm_witness :
    count_significant (holm_correction [0, 1] 0)
      ≤ count_significant (benjamini_hochberg_correction [0, 1] 0) :=
  bh_significant_ge_holm [0, 1] 0 (by
    intro p hp
    simp only [List.mem_cons, List.not_mem_nil, or_false] at hp
    rcases hp with h | h <;> rw [h] <;> exact ⟨by norm_num, by norm_num⟩)

/-- Python `str.lstrip()` on a character list. -/
def pyStripLeft (s : List Char) : List Char :=
  s.dropWhile Char.isWhitespace

/-- Python `str.rstrip()` on a character list. -/
def pyStripRight (s : List Char) : List Char :=
  (pyStripLeft s.reverse).reverse

/-- Python `str.strip()` on a character list. -/
def pyStrip (s : List Char) : List Char :=
  pyStripLeft (pyStripRight s)

/-- Python `str.lower()` on a character list. -/
def pyLower (s : List Char) : List Char :=
  s.map Char.toLower

/-- Python `str.partition(sep)` for a one-character separator: the part
before the first occurrence, whether the separator occurred, and the part
after it (`(s, False, "")` when absent, matching `(s, "", "")`). -/
def partitionChar (c : Char) : List Char → List Char × Bool × List Char
  | [] => ([], false, [])
  | x :: xs =>
    if x = c then ([], true, xs)
    else
      let r := partitionChar c xs
      (x :: r.1, r.2.1, r.2.2)

/-- Python `str.split(sep)` for a one-character separator
(`"".split(",") = [""]`). -/
def splitOnChar (c : Char) : List Char → List (List Char)
  | [] => [[]]
  | x :: xs =>
    if x = c then [] :: splitOnChar c xs
    else
      match splitOnChar c xs with
      | [] => [[x]]
      | y :: ys => (x :: y) :: ys

/-- Python dict assignment `d[k] = v` on an association list. -/
def assocUpd (l : List (List Char × List Char)) (k v : List Char) :
    List (List Char × List Char) :=
  if l.any (fun p => p.1 == k) then l.map (fun p => if p.1 == k then (k, v) else p)
  else l ++ [(k, v)]

/-- Python dict lookup `d.get(k)` on an association list. -/
def assocGet (l : List (List Char × List Char)) (k : List Char) : Option (List Char) :=
  (l.find? (fun p => p.1 == k)).map (fun p => p.2)

/-- The `for token in param_str.split(",")` loop of `parse_policy_preset`:
each token is stripped, empty tokens are skipped, a token without `=` raises,
and otherwise `params_raw[key.strip().lower()] = val.strip()`. -/
def parse_params_loop (tokens : List (List Char))
    (acc : List (List Char × List Char)) :
    Except String (List (List Char × List Char)) :=
  match tokens with
  | [] => .ok acc
  | tok :: rest =>
    let token := pyStrip tok
    if token = [] then parse_params_loop rest acc
    else
      let r := partitionChar '=' token
      if r.2.1 = false then
        .error "Invalid policy preset parameter. Expected key=value."
      else parse_params_loop rest (assocUpd acc (pyLower (pyStrip r.1)) (pyStrip r.2.2))

/-- The `_get_float` helper of `parse_policy_preset`: absent key gives the
default, a present key must parse as a float (`parseFloat` stands for
Python's `float()`). -/
def get_float (parseFloat : List Char → Option ℚ)
    (params : List (List Char × List Char)) (key : List Char)
    (default : Option ℚ) : Except String (Option ℚ) :=
  match assocGet params key with
  | none => .ok default
  | some v =>
    match parseFloat v with
    | some f => .ok (some f)
    | none => .error "Policy preset parameter must be numeric."

/-- The normalized gating dict produced by `parse_policy_preset`; optional
keys are present only when the corresponding parameter was supplied. -/
structure PresetGating where
  min_delta : ℚ
  min_pass_rate : Option ℚ
  alpha : Option ℚ
  power_target : Option ℚ
  violation_cap : Option ℤ
deriving DecidableEq

/-- The parts of the `parse_policy_preset` return value the claims depend on
(the `parameters`/`label`/`descriptor` report metadata and the duplicated
`policy.quality` dict are omitted: they do not feed the gating fields). -/
structure PresetPolicy where
  name : List Char
  gating : PresetGating
deriving DecidableEq

/-- Embeds `metamorphic_guard.policy.parse_policy_preset`: strip the value,
split off the preset name at the first `:`, reject unknown names, parse the
`key=value` parameter list, convert `margin`/`pass_rate`/`alpha`/`power` with
`float()` and `violation_cap` with `int()`, and build the gating dict with
`min_delta = margin` for `superiority` and `min_delta = -margin` for
`noninferiority` (`margin = _get_float("margin", 0.0) or 0.0`). -/
def parse_policy_preset (parseFloat : List Char → Option ℚ)
    (parseInt : List Char → Option ℤ) (value : List Char) :
    Except String PresetPolicy :=
  let raw := pyStrip value
  if raw = [] then .error "Policy preset cannot be empty."
  else
    let part := partitionChar ':' raw
    let name := pyLower (pyStrip part.1)
    let param_str := part.2.2
    if ¬ (name = ("noninferiority".toList) ∨ name = ("superiority".toList)) then
      .error "Unknown policy preset."
    else
      match (if param_str ≠ [] then parse_params_loop (splitOnChar ',' param_str) []
             else .ok []) with
      | .error e => .error e
      | .ok params_raw =>
        match get_float parseFloat params_raw ("margin".toList) (some 0) with
        | .error e => .error e
        | .ok margin0 =>
          match get_float parseFloat params_raw ("pass_rate".toList) none with
          | .error e => .error e
          | .ok pass_rate =>
            match get_float parseFloat params_raw ("alpha".toList) none with
            | .error e => .error e
            | .ok alpha_override =>
              match get_float parseFloat params_raw ("power".toList) none with
              | .error e => .error e
              | .ok power_override =>
                match (match assocGet params_raw ("violation_cap".toList) with
                       | none => Except.ok (none : Option ℤ)
                       | some v =>
                         match parseInt v with
                         | some iv => Except.ok (some iv)
                         | none => Except.error
                             "Policy preset parameter violation_cap must be an integer.") with
                | .error e => .error e
                | .ok violation_cap =>
                  let margin : ℚ := match margin0 with
                    | none => 0
                    | some x => if x = 0 then 0 else x
                  let min_delta := if name = ("superiority".toList) then margin else -margin
                  .ok ⟨name, ⟨min_delta, pass_rate, alpha_override, power_override,
                    violation_cap⟩⟩

theorem length_dropWhile_le {α : Type} (p : α → Bool) (l : List α) :
    (l.dropWhile p).length ≤ l.length :=
  (List.dropWhile_sublist p).length_le

theorem dropWhile_length_eq {α : Type} {p : α → Bool} {l : List α}
    (h : (l.dropWhile p).length = l.length) : l.dropWhile p = l := by
  cases l with
  | nil => rfl
  | cons a as =>
    rw [List.dropWhile_cons]
    by_cases hpa : p a = true
    · rw [List.dropWhile_cons, if_pos hpa] at h
      have := length_dropWhile_le p as
      simp at h
      omega
    · rw [if_neg hpa]

theorem head_not_white_of_dropWhile_eq {p : Char → Bool} {a : Char} {l : List Char}
    (h : List.dropWhile p (a :: l) = a :: l) : p a = false := by
  by_cases hpa : p a = true
  · rw [List.dropWhile_cons, if_pos hpa] at h
    have h1 := congrArg List.length h
    have h2 := length_dropWhile_le p l
    simp at h1
    omega
  · simpa using hpa

theorem pyStrip_fix_parts (M : List Char) (h : pyStrip M = M) :
    pyStripLeft M = M ∧ pyStripRight M = M := by
  have hr_le : (pyStripRight M).length ≤ M.length := by
    unfold pyStripRight pyStripLeft
    calc ((M.reverse.dropWhile Char.isWhitespace).reverse).length
        = (M.reverse.dropWhile Char.isWhitespace).length := List.length_reverse _
      _ ≤ M.reverse.length := length_dropWhile_le _ _
      _ = M.length := List.length_reverse _
  have hs_le : (pyStrip M).length ≤ (pyStripRight M).length := by
    unfold pyStrip pyStripLeft
    exact length_dropWhile_le _ _
  have hlen : (pyStripRight M).length = M.length := by
    have := congrArg List.length h
    omega
  have hright : pyStripRight M = M := by
    unfold pyStripRight pyStripLeft at hlen ⊢
    have hlen2 : (M.reverse.dropWhile Char.isWhitespace).length = M.reverse.length := by
      rw [List.length_reverse] at hlen ⊢
      omega
    rw [dropWhile_length_eq hlen2, List.reverse_reverse]
  refine ⟨?_, hright⟩
  have := h
  unfold pyStrip at this
  rwa [hright] at this

theorem pyStripRight_append (A M : List Char) (hAr : pyStripRight A = A)
    (hMr : pyStripRight M = M) : pyStripRight (A ++ M) = A ++ M := by
  unfold pyStripRight pyStripLeft at hAr hMr ⊢
  rw [List.reverse_append]
  cases hM : M.reverse with
  | nil =>
    have hMnil : M = [] := by
      have := congrArg List.reverse hM
      simpa using this
    rw [hMnil]
    simp only [List.reverse_nil, List.nil_append, List.append_nil]
    exact hAr
  | cons r rs =>
    have hdw : List.dropWhile Char.isWhitespace M.reverse = M.reverse := by
      have := congrArg List.reverse hMr
      simpa [List.reverse_reverse] using this
    rw [hM] at hdw
    have hr : Char.isWhitespace r = false := head_not_white_of_dropWhile_eq hdw
    rw [List.cons_append, List.dropWhile_cons, if_neg (by simp [hr])]
    have : r :: (rs ++ A.reverse) = (r :: rs) ++ A.reverse := rfl
    rw [this, ← hM, List.reverse_append, List.reverse_reverse, List.reverse_reverse]

theorem pyStrip_append (A M : List Char) (hAl : pyStripLeft A = A) (hAne : A ≠ [])
    (hAr : pyStripRight A = A) (hMr : pyStripRight M = M) :
    pyStrip (A ++ M) = A ++ M := by
  unfold pyStrip
  rw [pyStripRight_append A M hAr hMr]
  cases A with
  | nil => exact absurd rfl hAne
  | cons a as =>
    have hpa : Char.isWhitespace a = false :=
      head_not_white_of_dropWhile_eq hAl
    unfold pyStripLeft
    rw [List.cons_append, List.dropWhile_cons, if_neg (by simp [hpa])]

theorem splitOnChar_not_mem (c : Char) (l : List Char) (h : c ∉ l) :
    splitOnChar c l = [l] := by
  induction l with
  | nil => rfl
  | cons x xs ih =>
    unfold splitOnChar
    rw [if_neg (by intro he; exact h (he ▸ List.mem_cons_self x xs))]
    rw [ih (fun hc => h (List.mem_cons_of_mem x hc))]

/-- C7: for every margin token `M` (no surrounding whitespace, no comma) that
`float()` parses to the value `m`, parsing `"superiority:margin=M"` yields a
gating dict with `min_delta = m`, and parsing `"noninferiority:margin=M"`
yields a gating dict with `min_delta = -m`. -/
theorem parse_policy_preset_margin_sign (parseFloat : List Char → Option ℚ)
    (parseInt : List Char → Option ℤ) (M : List Char) (m : ℚ)
    (hstrip : pyStrip M = M) (hcomma : ',' ∉ M) (hparse : parseFloat M = some m) :
    (∃ r, parse_policy_preset parseFloat parseInt ("superiority:margin=".toList ++ M)
        = .ok r ∧ r.gating.min_delta = m) ∧
    (∃ r, parse_policy_preset parseFloat parseInt ("noninferiority:margin=".toList ++ M)
        = .ok r ∧ r.gating.min_delta = -m) := by
  obtain ⟨hMl, hMr⟩ := pyStrip_fix_parts M hstrip
  have htokstrip : pyStrip ("margin=".toList ++ M) = "margin=".toList ++ M :=
    pyStrip_append _ M rfl (by decide) rfl hMr
  have hsplit : splitOnChar ',' ("margin=".toList ++ M) = ["margin=".toList ++ M] := by
    apply splitOnChar_not_mem
    intro hmem
    rcases List.mem_append.mp hmem with h | h
    · revert h
      decide
    · exact hcomma h
  have hloop : parse_params_loop ["margin=".toList ++ M] []
      = .ok [("margin".toList, pyStrip M)] := by
    unfold parse_params_loop
    rw [htokstrip]
    rfl
  rw [hstrip] at hloop
  have hmargin : get_float parseFloat [("margin".toList, M)] ("margin".toList) (some 0)
      = .ok (some m) := by
    show (match parseFloat M with
          | some f => Except.ok (some f)
          | none => Except.error "Policy preset parameter must be numeric.")
        = Except.ok (some m)
    rw [hparse]
  have hminq : (if m = 0 then (0 : ℚ) else m) = m := by
    by_cases h : m = 0
    · rw [if_pos h, h]
    · rw [if_neg h]
  constructor
  · refine ⟨⟨"superiority".toList,
      ⟨(if m = 0 then 0 else m), none, none, none, none⟩⟩, ?_, hminq⟩
    have hv : pyStrip ("superiority:margin=".toList ++ M)
        = "superiority:margin=".toList ++ M :=
      pyStrip_append _ M rfl (by decide) rfl hMr
    have hpart : partitionChar ':' ("superiority:margin=".toList ++ M)
        = ("superiority".toList, true, "margin=".toList ++ M) := rfl
    have h1 : ¬("superiority:margin=".toList ++ M = []) := by
      intro h
      have := congrArg List.length h
      rw [List.length_append] at this
      have h19 : ("superiority:margin=".toList).length = 19 := rfl
      have h0 : ([] : List Char).length = 0 := rfl
      omega
    have h2 : ¬¬(pyLower (pyStrip ("superiority".toList)) = ("noninferiority".toList)
        ∨ pyLower (pyStrip ("superiority".toList)) = ("superiority".toList)) := by
      decide
    have h3 : ("margin=".toList ++ M) ≠ [] := by
      intro h
      have := congrArg List.length h
      rw [List.length_append] at this
      have h7 : ("margin=".toList).length = 7 := rfl
      have h0 : ([] : List Char).length = 0 := rfl
      omega
    simp only [parse_policy_preset]
    rw [hv, if_neg h1, hpart]
    dsimp only
    rw [if_neg h2, if_pos h3, hsplit, hloop]
    dsimp only
    rw [hmargin]
    rfl
  · refine ⟨⟨"noninferiority".toList,
      ⟨-(if m = 0 then 0 else m), none, none, none, none⟩⟩, ?_, by rw [hminq]⟩
    have hv : pyStrip ("noninferiority:margin=".toList ++ M)
        = "noninferiority:margin=".toList ++ M :=
      pyStrip_append _ M rfl (by decide) rfl hMr
    have hpart : partitionChar ':' ("noninferiority:margin=".toList ++ M)
        = ("noninferiority".toList, true, "margin=".toList ++ M) := rfl
    have h1 : ¬("noninferiority:margin=".toList ++ M = []) := by
      intro h
      have := congrArg List.length h
      rw [List.length_append] at this
      have h22 : ("noninferiority:margin=".toList).length = 22 := rfl
      have h0 : ([] : List Char).length = 0 := rfl
      omega
    have h2 : ¬¬(pyLower (pyStrip ("noninferiority".toList)) = ("noninferiority".toList)
        ∨ pyLower (pyStrip ("noninferiority".toList)) = ("superiority".toList)) := by
      decide
    have h3 : ("margin=".toList ++ M) ≠ [] := by
      intro h
      have := congrArg List.length h
      rw [List.length_append] at this
      have h7 : ("margin=".toList).length = 7 := rfl
      have h0 : ([] : List Char).length = 0 := rfl
      omega
    simp only [parse_policy_preset]
    rw [hv, if_neg h1, hpart]
    dsimp only
    rw [if_neg h2, if_pos h3, hsplit, hloop]
    dsimp only
    rw [hmargin]
    rfl

/-- Witness for C7 at `M = "0.05"`, `float("0.05") = 1/20`. -/
theorem parse_policy_preset_margin_sign_witness :
    (∃ r, parse_policy_preset
        (fun s => if s = "0.05".toList then some ((1 : ℚ) / 20) else none)
        (fun _ => none) ("superiority:margin=".toList ++ "0.05".toList)
        = .ok r ∧ r.gating.min_delta = (1 : ℚ) / 20) ∧
    (∃ r, parse_policy_preset
        (fun s => if s = "0.05".toList then some ((1 : ℚ) / 20) else none)
        (fun _ => none) ("noninferiority:margin=".toList ++ "0.05".toList)
        = .ok r ∧ r.gating.min_delta = -((1 : ℚ) / 20)) :=
  parse_policy_preset_margin_sign
    (fun s => if s = "0.05".toList then some ((1 : ℚ) / 20) else none)
    (fun _ => none) ("0.05".toList) ((1 : ℚ) / 20) (by decide) (by decide) (by rfl)

/-- A Python value as stored in a result dictionary: `None`, a bool, an int,
a float, a string, a list or a dict. -/
inductive PyVal where
  | noneV : PyVal
  | boolV : Bool → PyVal
  | intV : ℤ → PyVal
  | floatV : ℚ → PyVal
  | strV : String → PyVal
  | listV : List PyVal → PyVal
  | dictV : List (String × PyVal) → PyVal

mutual

/-- Structural equality on `PyVal` (the non-numeric part of Python `==`). -/
def pyBeq : PyVal → PyVal → Bool
  | .noneV, .noneV => true
  | .boolV a, .boolV b => a == b
  | .intV a, .intV b => a == b
  | .floatV a, .floatV b => a == b
  | .strV a, .strV b => a == b
  | .listV a, .listV b => pyBeqList a b
  | .dictV a, .dictV b => pyBeqDict a b
  | _, _ => false

/-- Elementwise equality of Python lists. -/
def pyBeqList : List PyVal → List PyVal → Bool
  | [], [] => true
  | x :: xs, y :: ys => pyBeq x y && pyBeqList xs ys
  | _, _ => false

/-- Entrywise equality of Python dicts (in insertion order). -/
def pyBeqDict : List (String × PyVal) → List (String × PyVal) → Bool
  | [], [] => true
  | (k1, v1) :: xs, (k2, v2) :: ys => k1 == k2 && pyBeq v1 v2 && pyBeqDict xs ys
  | _, _ => false

end

mutual

theorem pyBeq_refl : ∀ v : PyVal, pyBeq v v = true
  | .noneV => rfl
  | .boolV b => by simp [pyBeq]
  | .intV n => by simp [pyBeq]
  | .floatV q => by simp [pyBeq]
  | .strV s => by simp [pyBeq]
  | .listV xs => by simp [pyBeq, pyBeqList_refl xs]
  | .dictV xs => by simp [pyBeq, pyBeqDict_refl xs]

theorem pyBeqList_refl : ∀ xs : List PyVal, pyBeqList xs xs = true
  | [] => rfl
  | x :: xs => by simp [pyBeqList, pyBeq_refl x, pyBeqList_refl xs]

theorem pyBeqDict_refl : ∀ xs : List (String × PyVal), pyBeqDict xs xs = true
  | [] => rfl
  | (k, v) :: xs => by simp [pyBeqDict, pyBeq_refl v, pyBeqDict_refl xs]

end

/-- The numeric value of a `PyVal` when `isinstance(v, (int, float))` holds
(Python bools are ints: `True == 1`). -/
def PyVal.toNum : PyVal → Option ℚ
  | .boolV b => some (if b then 1 else 0)
  | .intV n => some ((n : ℤ) : ℚ)
  | .floatV q => some q
  | _ => none

/-- Python `==` on values: numeric values (bool/int/float) compare by
numeric value, everything else structurally.  (Cross-type numeric equality
nested inside containers is approximated structurally; the rational model
has no NaN.) -/
def pyEq (a b : PyVal) : Bool :=
  match a.toNum, b.toNum with
  | some x, some y => decide (x = y)
  | _, _ => pyBeq a b

theorem pyEq_refl (v : PyVal) : pyEq v v = true := by
  unfold pyEq
  cases h : v.toNum with
  | none => simp [h, pyBeq_refl]
  | some x => simp [h]

/-- Python `result_dict.get(key)`: `None` when the key is missing. -/
def dictGet (r : List (String × PyVal)) (key : String) : PyVal :=
  ((r.find? (fun p => p.1 == key)).map (fun p => p.2)).getD .noneV

/-- One insertion step of `collections.Counter`: keys compare with Python
`==`, new keys keep insertion order. -/
def counterIns (acc : List (PyVal × ℕ)) (v : PyVal) : List (PyVal × ℕ) :=
  if acc.any (fun e => pyEq e.1 v) then
    acc.map (fun e => if pyEq e.1 v then (e.1, e.2 + 1) else e)
  else acc ++ [(v, 1)]

/-- `collections.Counter(xs)` as an association list. -/
def pyCounter (xs : List PyVal) : List (PyVal × ℕ) :=
  xs.foldl counterIns []

/-- The dictionary returned by `detect_flakiness`. -/
structure FlakinessReport where
  is_flaky : Bool
  distinct_values : List PyVal
  distribution : List (PyVal × ℕ)

/-- Embeds `metamorphic_guard.stability.detect_flakiness`.  `pyStr` stands
for Python's `str()` rendering used to make lists/dicts hashable; with it
every key is hashable, so the `except TypeError` fallback of the source is
unreachable and omitted.  Python's truthiness test `if not results` is
`List.isEmpty`; the `match` on `values` mirrors `values[0]` / `values[1:]`
(its empty arm is unreachable because `results` is non-empty there). -/
def detect_flakiness (pyStr : PyVal → String)
    (results : List (List (String × PyVal)))
    (key_selector : String) (tolerance : ℚ) : FlakinessReport :=
  if results.isEmpty then ⟨false, [], []⟩
  else
    let values := results.map (fun r => dictGet r key_selector)
    match values with
    | [] => ⟨false, [], []⟩
    | first :: restv =>
      let is_flaky :=
        if (first.toNum).isSome ∧ 0 < tolerance then
          restv.any (fun v =>
            match v.toNum with
            | none => true
            | some x => decide (tolerance < |x - (first.toNum).getD 0|))
        else restv.any (fun v => ! pyEq v first)
      let hashable := values.map (fun v =>
        match v with
        | .listV _ => PyVal.strV (pyStr v)
        | .dictV _ => PyVal.strV (pyStr v)
        | _ => v)
      let dist := pyCounter hashable
      ⟨is_flaky, dist.map (fun e => e.1), dist⟩

/-- C10: `detect_flakiness` returns
`{is_flaky: false, distinct_values: [], distribution: {}}` on the empty
results list for every key selector and tolerance (rather than raising), and
returns `is_flaky = false` on any non-empty results list whose selected
values are all equal. -/
theorem detect_flakiness_empty_and_constant (pyStr : PyVal → String) :
    (∀ key_selector tolerance,
      detect_flakiness pyStr [] key_selector tolerance = ⟨false, [], []⟩) ∧
    (∀ results key_selector tolerance v, results ≠ [] →
      (∀ r ∈ results, dictGet r key_selector = v) →
      (detect_flakiness pyStr results key_selector tolerance).is_flaky = false) := by
  constructor
  · intro key_selector tolerance
    rfl
  · intro results key_selector tolerance v hne hall
    cases results with
    | nil => exact absurd rfl hne
    | cons r rs =>
      unfold detect_flakiness
      rw [if_neg (by simp)]
      simp only [List.map_cons]
      have hfirst : dictGet r key_selector = v := hall r (List.mem_cons_self _ _)
      rw [hfirst]
      have hrest : ∀ x ∈ rs.map (fun r' => dictGet r' key_selector), x = v := by
        intro x hx
        obtain ⟨r', hr', hx'⟩ := List.mem_map.mp hx
        rw [← hx']
        exact hall r' (List.mem_cons_of_mem _ hr')
      split
      · rename_i hc
        obtain ⟨xf, hxf⟩ := Option.isSome_iff_exists.mp hc.1
        rw [List.any_eq_false]
        intro x hx
        rw [hrest x hx]
        simp only [hxf, Option.getD_some, sub_self, abs_zero, decide_eq_true_eq]
        exact not_lt.mpr (le_of_lt hc.2)
      · rw [List.any_eq_false]
        intro x hx
        rw [hrest x hx, pyEq_refl]
        simp

/-- Witness for C10 on a one-element results list whose selected value is
the int `1`. -/
theorem detect_flakiness_constant_witness :
    (detect_flakiness (fun _ => "") [[("result", PyVal.intV 1)]] "result" 0).is_flaky
      = false :=
  (detect_flakiness_empty_and_constant (fun _ => "")).2
    [[("result", PyVal.intV 1)]] "result" 0 (PyVal.intV 1) (by simp)
    (by
      intro r hr
      simp only [List.mem_cons, List.not_mem_nil, or_false] at hr
      rw [hr]
      rfl)

/-- A `Property` as consumed by `_evaluate_results`: the check function may
raise (`Except.error`), which the harness treats as a failed check; only
properties with `mode = "hard"` gate pass/fail. -/
structure PropT (α β : Type) where
  check : β → α → Except String Bool
  description : String
  mode : String

/-- A `MetamorphicRelation` as consumed by `_evaluate_results`.  `transform`
receives `some rngSeed` when `accepts_rng` is set (the harness's
`_relation_rng(seed, case_index, relation_index, name)` value, abstracted to
a `ℕ` supplied by the `relRng` parameter below) and may raise. -/
structure RelT (α β : Type) where
  name : String
  transform : Option ℕ → α → Except String α
  expect : String
  category : Option String
  description : Option String
  accepts_rng : Bool

/-- Default relation value used only for out-of-range `getD` access. -/
def dfltRel (α β : Type) : RelT α β :=
  ⟨"", fun _ _ => .error "", "", none, none, false⟩

/-- The spec fields `_evaluate_results` reads.  `fmt_in`/`fmt_out` only feed
the violation-record payloads, which are not modelled (they do not influence
control flow, pass counts or relation statistics). -/
structure SpecT (α β : Type) where
  properties : List (PropT α β)
  relations : List (RelT α β)
  equivalence : β → β → Bool

/-- The hard-property loop of `_evaluate_results` for one case: every
property with `mode = "hard"` must return `True`; a raised check counts as
failed, and the loop always inspects every hard property (violations are
collected, not short-circuited). -/
def hard_props_pass {α β : Type} (sp : SpecT α β) (output : β) (args : α) : Bool :=
  sp.properties.all (fun p =>
    if p.mode == "hard" then
      match p.check output args with
      | .ok b => b
      | .error _ => false
    else true)

/-- One relation evaluation inside the per-case relation loop: apply the
transform (with the injected RNG when requested), re-run the implementation
on the transformed input, and compare with the spec's equivalence function.
Returns `.ok true` when the relation FAILS for this case (transform error,
failed re-execution, or inequivalence), `.ok false` when it passes, and
propagates the `ValueError` raised for an unsupported `expect` mode. -/
def relation_step {α β : Type} (eqf : β → β → Bool) (rerun : α → Except String β)
    (seed : ℕ) (relRng : ℕ → ℕ → ℕ → String → ℕ) (idx rIdx : ℕ)
    (r : RelT α β) (output : β) (args : α) : Except String Bool :=
  match (if r.accepts_rng then r.transform (some (relRng seed idx rIdx r.name)) args
         else r.transform none args) with
  | .error _ => .ok true
  | .ok transformed_args =>
    match rerun transformed_args with
    | .error _ => .ok true
    | .ok relation_output =>
      if r.expect == "equal" then .ok (! eqf output relation_output)
      else .error ("Unsupported relation expectation: " ++ r.expect)

/-- `relation_step` with a raised `ValueError` counted as a failure; under
the `expect = "equal"` hypothesis of the theorems this case never occurs. -/
def step_failed {α β : Type} (eqf : β → β → Bool) (rerun : α → Except String β)
    (seed : ℕ) (relRng : ℕ → ℕ → ℕ → String → ℕ) (idx rIdx : ℕ)
    (r : RelT α β) (output : β) (args : α) : Bool :=
  match relation_step eqf rerun seed relRng idx rIdx r output args with
  | .ok b => b
  | .error _ => true

/-- The `for relation_index, relation in enumerate(spec.relations)` loop of
`_evaluate_results` for one case: returns the case's metamorphic pass flag
together with one `(total_hit, failure_hit)` statistics increment per
relation; the loop `break`s at the first failing relation, so relations
after it receive `(false, false)`.  The rerun cache of the source is the
identity under a pure `rerun` function and is not modelled. -/
def eval_relations {α β : Type} (eqf : β → β → Bool) (rerun : α → Except String β)
    (seed : ℕ) (relRng : ℕ → ℕ → ℕ → String → ℕ) (idx : ℕ) :
    List (RelT α β) → ℕ → β → α → Except String (Bool × List (Bool × Bool))
  | [], _, _, _ => .ok (true, [])
  | r :: rest, rIdx, output, args =>
    match relation_step eqf rerun seed relRng idx rIdx r output args with
    | .error e => .error e
    | .ok failed =>
      if failed then .ok (false, (true, true) :: rest.map (fun _ => (false, false)))
      else
        match eval_relations eqf rerun seed relRng idx rest (rIdx + 1) output args with
        | .error e => .error e
        | .ok pr => .ok (pr.1, (true, false) :: pr.2)

theorem bool_eq_of_iff {a b : Bool} (h : a = true ↔ b = true) : a = b := by
  cases a <;> cases b <;> simp_all

theorem relation_step_ok {α β : Type} (eqf : β → β → Bool) (rerun : α → Except String β)
    (seed : ℕ) (relRng : ℕ → ℕ → ℕ → String → ℕ) (idx rIdx : ℕ)
    (r : RelT α β) (output : β) (args : α) (hexp : r.expect = "equal") :
    ∃ b, relation_step eqf rerun seed relRng idx rIdx r output args = .ok b := by
  unfold relation_step
  cases htr : (if r.accepts_rng then r.transform (some (relRng seed idx rIdx r.name)) args
      else r.transform none args) with
  | error e => exact ⟨true, rfl⟩
  | ok targs =>
    cases hrr : rerun targs with
    | error e => exact ⟨true, by simp [hrr]⟩
    | ok rout => exact ⟨! eqf output rout, by simp [hrr, hexp]⟩

/-- Structure of the per-case relation loop: it never raises when every
relation expects `"equal"`, its statistics list is parallel to the relation
list, and relation `k` is reached (its `total` incremented) exactly when
every earlier relation did not fail — the declared-order, stop-at-first-failure
semantics. -/
theorem eval_relations_spec {α β : Type} (eqf : β → β → Bool)
    (rerun : α → Except String β) (seed : ℕ) (relRng : ℕ → ℕ → ℕ → String → ℕ)
    (idx : ℕ) (rels : List (RelT α β)) (rIdx : ℕ) (output : β) (args : α)
    (hexp : ∀ r ∈ rels, r.expect = "equal") :
    ∃ p flags, eval_relations eqf rerun seed relRng idx rels rIdx output args
        = .ok (p, flags) ∧ flags.length = rels.length ∧
      ∀ k, k < rels.length →
        ((flags.getD k (false, false)).1 = true ↔
          ∀ i, i < k → step_failed eqf rerun seed relRng idx (rIdx + i)
            (rels.getD i (dfltRel α β)) output args = false) := by
  induction rels generalizing rIdx with
  | nil =>
    exact ⟨true, [], rfl, rfl, fun k hk => absurd hk (by simp)⟩
  | cons r rest ih =>
    obtain ⟨b, hb⟩ := relation_step_ok eqf rerun seed relRng idx rIdx r output args
      (hexp r (List.mem_cons_self _ _))
    have hsf : step_failed eqf rerun seed relRng idx rIdx r output args = b := by
      unfold step_failed
      rw [hb]
    cases b with
    | true =>
      refine ⟨false, (true, true) :: rest.map (fun _ => (false, false)), ?_, by simp, ?_⟩
      · unfold eval_relations
        rw [hb]
        rfl
      · intro k hk
        cases k with
        | zero => simp
        | succ k' =>
          constructor
          · intro hflag
            exfalso
            have hk' : k' < rest.length := by
              simp at hk
              omega
            have : ((rest.map (fun _ => ((false : Bool), (false : Bool)))).getD k'
                (false, false)).1 = false := by
              rw [List.getD_eq_getElem _ _ (by simpa using hk')]
              simp
            rw [List.getD_cons_succ] at hflag
            rw [this] at hflag
            exact Bool.false_ne_true hflag
          · intro hall
            exfalso
            have h0 := hall 0 (Nat.succ_pos k')
            rw [List.getD_cons_zero, Nat.add_zero] at h0
            rw [hsf] at h0
            simp at h0
    | false =>
      obtain ⟨p, flags, hrec, hlen, hflags⟩ := ih (rIdx + 1)
        (fun r' hr' => hexp r' (List.mem_cons_of_mem _ hr'))
      refine ⟨p, (true, false) :: flags, ?_, by simpa using hlen, ?_⟩
      · unfold eval_relations
        rw [hb]
        simp only [if_neg (by simp : ¬ (false : Bool) = true)]
        rw [hrec]
      · intro k hk
        cases k with
        | zero =>
          simp only [List.getD_cons_zero]
          constructor
          · intro _ i hi
            omega
          · intro _
            trivial
        | succ k' =>
          rw [List.getD_cons_succ]
          have hk' : k' < rest.length := by
            simp at hk
            omega
          rw [hflags k' hk']
          constructor
          · intro hall i hi
            cases i with
            | zero =>
              rw [Nat.add_zero, List.getD_cons_zero, hsf]
            | succ i' =>
              have := hall i' (by omega)
              rw [List.getD_cons_succ]
              have harith : rIdx + (i' + 1) = rIdx + 1 + i' := by omega
              rw [harith]
              exact this
          · intro hall i hi
            have := hall (i + 1) (by omega)
            rw [List.getD_cons_succ] at this
            have harith : rIdx + 1 + i = rIdx + (i + 1) := by omega
            rw [harith]
            exact this

/-- One case of `_evaluate_results`: a failed execution or any failed hard
property short-circuits the case (no relation is attempted); otherwise the
relation loop runs.  Returns the case's pass flag and the per-relation
statistics increments. -/
def evaluate_case {α β : Type} (sp : SpecT α β) (rerun : α → Except String β)
    (seed : ℕ) (relRng : ℕ → ℕ → ℕ → String → ℕ) (idx : ℕ)
    (result : Except String β) (args : α) : Except String (Bool × List (Bool × Bool)) :=
  match result with
  | .error _ => .ok (false, sp.relations.map (fun _ => (false, false)))
  | .ok output =>
    if hard_props_pass sp output args then
      eval_relations sp.equivalence rerun seed relRng idx sp.relations 0 output args
    else .ok (false, sp.relations.map (fun _ => (false, false)))

/-- Specification-side predicate: relation `j` is REACHED for a case exactly
when the execution succeeded, every hard property passed, and none of the
relations declared before `j` failed for this case. -/
def case_reached {α β : Type} (sp : SpecT α β) (rerun : α → Except String β)
    (seed : ℕ) (relRng : ℕ → ℕ → ℕ → String → ℕ) (j idx : ℕ)
    (result : Except String β) (args : α) : Bool :=
  match result with
  | .error _ => false
  | .ok output =>
    hard_props_pass sp output args &&
    (List.range j).all (fun i =>
      ! step_failed sp.equivalence rerun seed relRng idx i
        (sp.relations.getD i (dfltRel α β)) output args)

theorem map_const_getD {α : Type} (l : List α) (j : ℕ) (hj : j < l.length) :
    ((l.map (fun _ => ((false : Bool), (false : Bool)))).getD j (false, false))
      = (false, false) := by
  rw [List.getD_eq_getElem _ _ (by simpa using hj)]
  simp

theorem evaluate_case_spec {α β : Type} (sp : SpecT α β) (rerun : α → Except String β)
    (seed : ℕ) (relRng : ℕ → ℕ → ℕ → String → ℕ) (idx : ℕ)
    (result : Except String β) (args : α) (j : ℕ)
    (hexp : ∀ r ∈ sp.relations, r.expect = "equal") (hj : j < sp.relations.length) :
    ∃ pr : Bool × List (Bool × Bool),
      evaluate_case sp rerun seed relRng idx result args = .ok pr ∧
      pr.2.length = sp.relations.length ∧
      (pr.2.getD j (false, false)).1
        = case_reached sp rerun seed relRng j idx result args := by
  cases result with
  | error e =>
    refine ⟨(false, sp.relations.map (fun _ => (false, false))), rfl, by simp, ?_⟩
    rw [map_const_getD _ _ hj]
    rfl
  | ok output =>
    by_cases hhard : hard_props_pass sp output args = true
    · obtain ⟨p, flags, heq, hlen, hiff⟩ := eval_relations_spec sp.equivalence rerun
        seed relRng idx sp.relations 0 output args hexp
      refine ⟨(p, flags), ?_, hlen, ?_⟩
      · show (if hard_props_pass sp output args = true then
            eval_relations sp.equivalence rerun seed relRng idx sp.relations 0 output args
          else Except.ok (false, sp.relations.map (fun _ => (false, false))))
          = Except.ok (p, flags)
        rw [if_pos hhard, heq]
      · apply bool_eq_of_iff
        rw [hiff j hj]
        unfold case_reached
        simp only [hhard, Bool.true_and, List.all_eq_true, List.mem_range,
          Bool.not_eq_true', Nat.zero_add]
    · refine ⟨(false, sp.relations.map (fun _ => (false, false))), ?_, by simp, ?_⟩
      · show (if hard_props_pass sp output args = true then
            eval_relations sp.equivalence rerun seed relRng idx sp.relations 0 output args
          else Except.ok (false, sp.relations.map (fun _ => (false, false))))
          = Except.ok (false, sp.relations.map (fun _ => (false, false)))
        rw [if_neg hhard]
      · rw [map_const_getD _ _ hj]
        show (false, false).1 = (hard_props_pass sp output args &&
          (List.range j).all (fun i =>
            ! step_failed sp.equivalence rerun seed relRng idx i
              (sp.relations.getD i (dfltRel α β)) output args))
        simp only [Bool.not_eq_true] at hhard
        rw [hhard]
        rfl

/-- The per-relation statistics update performed per case:
`stats_entry["total"] += 1` for every reached relation and
`stats_entry["failures"] += 1` for the failing one. -/
def accumStats (stats : List (ℕ × ℕ)) (flags : List (Bool × Bool)) : List (ℕ × ℕ) :=
  List.zipWith (fun s f =>
    (s.1 + (if f.1 then 1 else 0), s.2 + (if f.2 then 1 else 0))) stats flags

theorem accumStats_length (stats : List (ℕ × ℕ)) (flags : List (Bool × Bool))
    (h : flags.length = stats.length) : (accumStats stats flags).length = stats.length := by
  simp [accumStats, h]

theorem accumStats_getD_fst (stats : List (ℕ × ℕ)) (flags : List (Bool × Bool))
    (j : ℕ) (hj : j < stats.length) (h : flags.length = stats.length) :
    ((accumStats stats flags).getD j (0, 0)).1
      = (stats.getD j (0, 0)).1 + (if (flags.getD j (false, false)).1 then 1 else 0) := by
  have hj2 : j < (accumStats stats flags).length := by
    rw [accumStats_length stats flags h]
    omega
  rw [List.getD_eq_getElem _ _ hj2]
  unfold accumStats
  rw [List.getElem_zipWith]
  rw [List.getD_eq_getElem stats _ hj, List.getD_eq_getElem flags _ (by omega)]

/-- The `for idx, (result, args) in enumerate(zip(results, test_inputs))`
loop of `_evaluate_results`, carrying the running pass count and the
per-relation statistics. -/
def eval_loop {α β : Type} (sp : SpecT α β) (rerun : α → Except String β)
    (seed : ℕ) (relRng : ℕ → ℕ → ℕ → String → ℕ) :
    List (Except String β × α) → ℕ → ℕ → List (ℕ × ℕ) →
    Except String (ℕ × List Bool × List (ℕ × ℕ))
  | [], _, passes, stats => .ok (passes, [], stats)
  | (result, args) :: rest, idx, passes, stats =>
    match evaluate_case sp rerun seed relRng idx result args with
    | .error e => .error e
    | .ok pr =>
      match eval_loop sp rerun seed relRng rest (idx + 1)
          (passes + (if pr.1 then 1 else 0)) (accumStats stats pr.2) with
      | .error e => .error e
      | .ok res => .ok (res.1, pr.1 :: res.2.1, res.2.2)

/-- The metrics dictionary `_evaluate_results` returns (the capped
`prop_violations` / `mr_violations` report payloads and the monitoring
counter side effects are not modelled; they do not influence any returned
count). -/
structure EvalMetrics where
  passes : ℕ
  total : ℕ
  pass_rate : ℚ
  pass_indicators : List Bool
  relation_stats : List (ℕ × ℕ)

/-- Embeds `metamorphic_guard.harness._evaluate_results`.  `relRng` stands
for `_relation_rng` (a `hashlib`-seeded standard-library RNG derivation);
`rerun` is the re-execution callback.  `relation_stats` is positional, one
`(total, failures)` pair per declared relation, which matches the source's
name-keyed dict when relation names are distinct. -/
def _evaluate_results {α β : Type} (sp : SpecT α β) (rerun : α → Except String β)
    (seed : ℕ) (relRng : ℕ → ℕ → ℕ → String → ℕ)
    (results : List (Except String β)) (test_inputs : List α) :
    Except String EvalMetrics :=
  match eval_loop sp rerun seed relRng (results.zip test_inputs) 0 0
      (sp.relations.map (fun _ => (0, 0))) with
  | .error e => .error e
  | .ok res =>
    .ok ⟨res.1, results.length,
      (if results.length ≠ 0 then (res.1 : ℚ) / (results.length : ℚ) else 0),
      res.2.1, res.2.2⟩

/-- Specification-side count: the number of cases (starting at index `idx`)
in which relation `j` is reached. -/
def count_reached {α β : Type} (sp : SpecT α β) (rerun : α → Except String β)
    (seed : ℕ) (relRng : ℕ → ℕ → ℕ → String → ℕ) (j : ℕ) :
    List (Except String β × α) → ℕ → ℕ
  | [], _ => 0
  | (result, args) :: rest, idx =>
    (if case_reached sp rerun seed relRng j idx result args then 1 else 0)
      + count_reached sp rerun seed relRng j rest (idx + 1)

theorem eval_loop_spec {α β : Type} (sp : SpecT α β) (rerun : α → Except String β)
    (seed : ℕ) (relRng : ℕ → ℕ → ℕ → String → ℕ)
    (hexp : ∀ r ∈ sp.relations, r.expect = "equal") (j : ℕ)
    (hj : j < sp.relations.length) :
    ∀ (cases : List (Except String β × α)) (idx passes : ℕ) (stats : List (ℕ × ℕ)),
      stats.length = sp.relations.length →
      ∃ res, eval_loop sp rerun seed relRng cases idx passes stats = .ok res ∧
        res.2.2.length = sp.relations.length ∧
        (res.2.2.getD j (0, 0)).1
          = (stats.getD j (0, 0)).1 + count_reached sp rerun seed relRng j cases idx := by
  intro cases
  induction cases with
  | nil =>
    intro idx passes stats hstats
    exact ⟨(passes, [], stats), rfl, hstats, by simp [count_reached]⟩
  | cons c rest ih =>
    intro idx passes stats hstats
    obtain ⟨result, args⟩ := c
    obtain ⟨pr, hpr, hprlen, hprflag⟩ := evaluate_case_spec sp rerun seed relRng idx
      result args j hexp hj
    obtain ⟨res, hres, hreslen, hresstat⟩ := ih (idx + 1) (passes + (if pr.1 then 1 else 0))
      (accumStats stats pr.2) (by rw [accumStats_length stats pr.2 (by omega)]; omega)
    refine ⟨(res.1, pr.1 :: res.2.1, res.2.2), ?_, hreslen, ?_⟩
    · unfold eval_loop
      rw [hpr]
      show (match eval_loop sp rerun seed relRng rest (idx + 1)
          (passes + (if pr.1 then 1 else 0)) (accumStats stats pr.2) with
        | Except.error e => Except.error e
        | Except.ok res2 => Except.ok (res2.1, pr.1 :: res2.2.1, res2.2.2))
        = Except.ok (res.1, pr.1 :: res.2.1, res.2.2)
      rw [hres]
    · rw [hresstat, accumStats_getD_fst stats pr.2 j (by omega) (by omega), hprflag]
      have hcount : count_reached sp rerun seed relRng j ((result, args) :: rest) idx
          = (if case_reached sp rerun seed relRng j idx result args then 1 else 0)
            + count_reached sp rerun seed relRng j rest (idx + 1) := rfl
      rw [hcount]
      by_cases hr : case_reached sp rerun seed relRng j idx result args = true
      · rw [hr]
        simp only [if_pos rfl]
        omega
      · simp only [Bool.not_eq_true] at hr
        rw [hr]
        simp only [Bool.false_eq_true, if_false]
        omega

/-- C1: for every spec whose relations all use the implemented
`expect = "equal"` mode, and every relation position `j`, `_evaluate_results`
returns metrics in which the coverage total of relation `j` counts exactly
the cases in which relation `j` was reached: the execution succeeded, the
hard properties (checked first) all passed, and no relation declared before
`j` failed — i.e. relations are evaluated in declared order, evaluation
stops at the first failing relation (transform error, failed re-execution,
or inequivalence), and relations after the first failure are not attempted. -/
theorem evaluate_results_relation_coverage {α β : Type} (sp : SpecT α β)
    (rerun : α → Except String β) (seed : ℕ) (relRng : ℕ → ℕ → ℕ → String → ℕ)
    (results : List (Except String β)) (test_inputs : List α) (j : ℕ)
    (hexp : ∀ r ∈ sp.relations, r.expect = "equal") (hj : j < sp.relations.length) :
    ∃ m : EvalMetrics,
      _evaluate_results sp rerun seed relRng results test_inputs = .ok m ∧
      (m.relation_stats.getD j (0, 0)).1
        = count_reached sp rerun seed relRng j (results.zip test_inputs) 0 := by
  obtain ⟨res, hres, hreslen, hresstat⟩ := eval_loop_spec sp rerun seed relRng hexp j hj
    (results.zip test_inputs) 0 0 (sp.relations.map (fun _ => (0, 0))) (by simp)
  refine ⟨⟨res.1, results.length,
    (if results.length ≠ 0 then (res.1 : ℚ) / (results.length : ℚ) else 0),
    res.2.1, res.2.2⟩, ?_, ?_⟩
  · unfold _evaluate_results
    rw [hres]
  · have hinit : ((sp.relations.map (fun _ => ((0 : ℕ), (0 : ℕ)))).getD j (0, 0)).1 = 0 := by
      rw [List.getD_eq_getElem _ _ (by simpa using hj)]
      simp
    rw [hresstat, hinit]
    omega

/-- Witness for C1: a one-relation spec (`expect = "equal"`), one successful
case. -/
theorem evaluate_results_relation_coverage_witness :
    ∃ m : EvalMetrics,
      _evaluate_results
        (⟨[], [⟨"noop", fun _ a => .ok a, "equal", none, none, false⟩],
          fun a b => a == b⟩ : SpecT ℕ ℕ)
        (fun a => .ok a) 0 (fun _ _ _ _ => 0) [.ok 1] [1] = .ok m ∧
      (m.relation_stats.getD 0 (0, 0)).1
        = count_reached
            (⟨[], [⟨"noop", fun _ a => .ok a, "equal", none, none, false⟩],
              fun a b => a == b⟩ : SpecT ℕ ℕ)
            (fun a => .ok a) 0 (fun _ _ _ _ => 0) 0 ([(.ok 1, 1)]) 0 :=
  evaluate_results_relation_coverage
    (⟨[], [⟨"noop", fun _ a => .ok a, "equal", none, none, false⟩],
      fun a b => a == b⟩ : SpecT ℕ ℕ)
    (fun a => .ok a) 0 (fun _ _ _ _ => 0) [.ok 1] [1] 0
    (by
      intro r hr
      rw [List.mem_singleton] at hr
      rw [hr])
    (Nat.zero_lt_one)

/-- The adoption decision attached to a report. -/
structure Decision where
  adopt : Bool
  reason : String

/-- A report together with its decision field. -/
structure ReportWithDecision (ρ : Type) where
  body : ρ
  decision : Decision

/-- Embeds the decision-attachment step of `metamorphic_guard.harness.run_eval`:
`result["decision"] = decide_adopt(result, ...)` inside `try`, with
`except Exception as exc: result["decision"] = {"adopt": False, "reason":
f"gate_error: {exc}"}`.  The `gate` parameter stands for the
`decide_adopt` invocation (an arbitrary function that may raise); totality of
this definition is the "never aborts report generation" behaviour. -/
def run_eval_attach_decision {ρ : Type} (report : ρ)
    (gate : ρ → Except String Decision) : ReportWithDecision ρ :=
  ⟨report,
    match gate report with
    | .ok d => d
    | .error exc => ⟨false, "gate_error: " ++ exc⟩⟩

/-- C2: if the gate invocation raises any exception, `run_eval` does not
propagate it: the report still exists (with its body untouched) and its
decision is `{adopt: false, reason: "gate_error: ..."}`, the reason string
beginning with `gate_error`. -/
theorem run_eval_gate_error_decision {ρ : Type} (report : ρ)
    (gate : ρ → Except String Decision) (msg : String)
    (h : gate report = .error msg) :
    (run_eval_attach_decision report gate).body = report ∧
    (run_eval_attach_decision report gate).decision.adopt = false ∧
    (run_eval_attach_decision report gate).decision.reason = "gate_error: " ++ msg ∧
    ∃ rest, (run_eval_attach_decision report gate).decision.reason
      = "gate_error" ++ rest := by
  unfold run_eval_attach_decision
  rw [h]
  refine ⟨rfl, rfl, rfl, ": " ++ msg, ?_⟩
  show "gate_error: " ++ msg = "gate_error" ++ (": " ++ msg)
  rw [← String.append_assoc]
  rfl

/-- Witness for C2: a gate that raises `"boom"`. -/
theorem run_eval_gate_error_decision_witness :
    (run_eval_attach_decision (0 : ℕ) (fun _ => .error "boom")).body = 0 ∧
    (run_eval_attach_decision (0 : ℕ) (fun _ => .error "boom")).decision.adopt = false ∧
    (run_eval_attach_decision (0 : ℕ) (fun _ => .error "boom")).decision.reason
      = "gate_error: " ++ "boom" ∧
    ∃ rest, (run_eval_attach_decision (0 : ℕ)
      (fun _ => .error "boom")).decision.reason = "gate_error" ++ rest :=
  run_eval_gate_error_decision 0 (fun _ => .error "boom") "boom" rfl
